import Mathlib

/-!
# hobbit-packer: a shallow embedding of `hobbit-packer-utility.cpp`

The program has three workers, `unpackFiles`, `deleteFilesInFolder` and
`moveLevelFolders`, which walk directories, classify names, call two external
commands through `std::system` and create, rename and delete directories.

The embedding has four layers.

* Strings: `tolower`, `toLower`, and the two `std::filesystem::path`
  decompositions the program uses, `filename` and `extension`.
* A filesystem: the tree below the current working directory as a finite list
  of `(path, node)` pairs, with the `std::filesystem` calls of the program as
  functions on it.  Each call can raise `filesystem_error`, either for a reason
  visible in the tree (removing a non-empty directory) or because the
  environment makes it fail (permissions, I/O); the latter is a fault schedule
  carried by the world.
* A world `World` (filesystem, fault schedule, output trace) and the type
  `M` of computations that end normally or with a `filesystem_error` in flight.
* The program's functions, written in the order of the source.

What the filesystem layer takes for granted:

* Paths are lists of components relative to the working directory and name a
  node exactly, case-sensitively: `levels` and `LEVELS` are two names.  The
  section on a case-insensitive filesystem runs the same program where they are
  one name.
* A `directory_iterator` shows the entries the directory had when the iterator
  was made; what the loop or an external command changes afterwards is not
  shown to that loop.
* `fs::rename` follows POSIX `rename`.
* `fs::current_path()` does not fail; its text is a parameter.
* An external command may change the tree in any way and return any exit code;
  where a statement needs a command to leave some part of the tree alone, it
  says so as a hypothesis.
-/

namespace HobbitPacker

/-! ## Strings -/

/-- The C function `tolower` in the "C" locale (the program never calls
`setlocale`): the 26 upper-case ASCII letters go to lower case, every other
character is returned unchanged. -/
def tolower (c : Char) : Char :=
  if 65 ≤ c.toNat ∧ c.toNat ≤ 90 then Char.ofNat (c.toNat + 32) else c

/-- Source lines 11-15: `std::transform(..., ::tolower)` over a copy of the string. -/
def toLower (str : String) : String :=
  ⟨str.data.map tolower⟩

/-- A path below the working directory: its components, outermost first.
`[]` is the working directory itself. -/
abbrev Path := List String

/-- The suffix of a character list that starts at its last period, if it has one. -/
def lastDotSuffix : List Char → Option (List Char)
  | [] => none
  | c :: cs =>
    match lastDotSuffix cs with
    | some s => some s
    | none => if c = '.' then some (c :: cs) else none

/-- The extension of one filename, as `std::filesystem::path::extension` defines
it: empty for `.` and `..`, empty when the name has no period other than a
leading one, otherwise the suffix that starts at the last period. -/
def extensionOfName (f : String) : String :=
  if f = "." ∨ f = ".." then ""
  else
    match f.data with
    | [] => ""
    | _ :: cs => ⟨(lastDotSuffix cs).getD []⟩

/-- The member `path::filename()`: the last component (empty for the empty path). -/
def filename (p : Path) : String :=
  p.getLastD ""

/-- The member `path::extension()`: the extension of `filename()`. -/
def extension (p : Path) : String :=
  extensionOfName (filename p)

/-- The member `path::string()` for a path below the working directory, whose
own text is `cwd`: the components joined by the separator `/`. -/
def pathString (cwd : String) (p : Path) : String :=
  p.foldl (fun acc c => acc ++ "/" ++ c) cwd

/-! ## The level table -/

/-- Source lines 97-110: the table `levelMap`, in the order of the initialiser. -/
def levelMap : List (String × String) :=
  [("CH00_DREAMWORLD", "Ch00_Dre"),
   ("CH01_HOBBITON", "Ch01_Hob"),
   ("CH02_ROASTMUTTON", "Ch02_Roa"),
   ("CH02A_TROLLHOLE", "Ch02a_Tr"),
   ("CH4_OVERHILL", "Ch4_Over"),
   ("CH05_SWORDLIGHT", "Ch05_Swo"),
   ("CH07_BARRELSOUTOFBOND", "Ch07_Bar"),
   ("CH08_LAKETOWN", "Ch08_Lak"),
   ("CH09_SMAUG", "Ch09_Sma"),
   ("CH10_LONELY_MOUNTAIN", "Ch10_Lon"),
   ("CH11_CLOUDSBURST", "Ch11_Clo"),
   ("MIRKWOOD", "Mirkwood")]

/-- The call `levelMap.find(name)`: the alias stored under exactly this key. -/
def levelMapFind (name : String) : Option String :=
  (levelMap.find? (fun kv => kv.1 == name)).map Prod.snd

/-! ## Classification of a directory entry -/

/-- What the loop of `unpackFiles` does with one entry. -/
inductive UnpackDecision where
  | skipped
  | passed
  | ignored
  deriving DecidableEq, Repr

/-- What the loop of `deleteFilesInFolder` does with one entry. -/
inductive CleanupDecision where
  | kept
  | deleted
  | ignored
  deriving DecidableEq, Repr

/-- Source lines 73-85, the branch taken by the body of the loop of `unpackFiles`:
the audio test on the lower-cased filename comes first, then the test of the
lower-cased extension. -/
def unpackDecision (skipAudioFiles : Bool) (filePath : Path) : UnpackDecision :=
  let fileName := toLower (filename filePath)
  if skipAudioFiles && (fileName == "audio1.dfs" || fileName == "audio2.dfs") then
    .skipped
  else
    let fileExt := toLower (extension filePath)
    if fileExt == ".dfs" then .passed else .ignored

/-- Source lines 40-58, the branch taken by the body of the loop of
`deleteFilesInFolder`. -/
def cleanupDecision (keepAudioFiles : Bool) (filePath : Path) : CleanupDecision :=
  let fileExt := toLower (extension filePath)
  if keepAudioFiles &&
      (let fileName := toLower (filename filePath)
       fileName == "audio1.dfs" || fileName == "audio2.dfs" ||
       fileName == "audio1.000" || fileName == "audio2.000") then
    .kept
  else if fileExt == ".dfs" || fileExt == ".000" then .deleted
  else .ignored

/-! ## The filesystem below the working directory -/

/-- A node of the tree: a regular file with its bytes, or a directory. -/
inductive Node where
  | file (content : String)
  | dir
  deriving DecidableEq, Repr

/-- The tree below the working directory: every path that exists, with its node.
The working directory itself (`[]`) is not listed; it always exists. -/
abbrev FS := List (Path × Node)

namespace FS

/-- The node at a path, if the path exists. -/
def lookup (σ : FS) (p : Path) : Option Node :=
  if p = [] then some .dir else (σ.find? (fun e => e.1 == p)).map Prod.snd

/-- The query `fs::exists(p)`. -/
def pathExists (σ : FS) (p : Path) : Bool :=
  (lookup σ p).isSome

/-- The query `fs::is_directory(p)`. -/
def isDirectory (σ : FS) (p : Path) : Bool :=
  lookup σ p == some .dir

/-- The name under which `p` is an immediate child of `d`, if it is one. -/
def childName (d p : Path) : Option String :=
  if d <+: p then
    match p.drop d.length with
    | [n] => some n
    | _ => none
  else none

/-- The names of the immediate children of `d`, each once, in the order in
which the tree lists them.  The order a real directory is read in is not
specified; every order is the order of some tree. -/
def children (σ : FS) (d : Path) : List String :=
  (σ.filterMap (fun e => childName d e.1)).dedup

/-- Nothing exists strictly below `p`. -/
def isEmptyBelow (σ : FS) (p : Path) : Bool :=
  σ.all (fun e => !(decide (p <+: e.1)) || e.1 == p)

/-- The effect of `fs::remove_all(p)`: `p` and everything below it is gone. -/
def removeAll (σ : FS) (p : Path) : FS :=
  σ.filter (fun e => !(decide (p <+: e.1)))

/-- The effect of `fs::remove(p)`: nothing happens when `p` does not exist, a file
or an empty directory is deleted, a non-empty directory is an error (`none`). -/
def remove (σ : FS) (p : Path) : Option FS :=
  match lookup σ p with
  | none => some σ
  | some (.file _) => some (removeAll σ p)
  | some .dir => if isEmptyBelow σ p then some (removeAll σ p) else none

/-- The effect of `fs::create_directories`, component by component: `pre` is the
part of the path already known to be a directory, `todo` what remains.  A
component that exists as a directory is passed over, one that exists as a file
is an error (`none`), one that does not exist is created. -/
def createDirectoriesFrom (σ : FS) (pre : Path) : List String → Option FS
  | [] => some σ
  | c :: cs =>
    match lookup σ (pre ++ [c]) with
    | some .dir => createDirectoriesFrom σ (pre ++ [c]) cs
    | some (.file _) => none
    | none => createDirectoriesFrom (σ ++ [(pre ++ [c], .dir)]) (pre ++ [c]) cs

/-- The effect of `fs::create_directories(p)`. -/
def createDirectories (σ : FS) (p : Path) : Option FS :=
  createDirectoriesFrom σ [] p

/-- The tree in which whatever was at `b` is gone and `a`, with everything below
it, is found at `b`. -/
def renamed (σ : FS) (a b : Path) : FS :=
  σ.filterMap (fun e =>
    if b <+: e.1 then none
    else if a <+: e.1 then some (b ++ e.1.drop a.length, e.2)
    else some e)

/-- The effect of `fs::rename(a, b)`, with the rules of POSIX `rename`, which the
C++ standard refers to.  Errors (`none`): `a` does not exist; `b` lies inside `a`;
the parent of `b` is not an existing directory; `b` exists and is a non-empty
directory, or is a directory while `a` is a file, or is a file while `a` is a
directory.  Otherwise whatever was at `b` is replaced, and `a` with everything
below it is found at `b`. -/
def rename (σ : FS) (a b : Path) : Option FS :=
  match lookup σ a with
  | none => none
  | some na =>
    if a = b then some σ
    else if a = [] ∨ b = [] ∨ a <+: b then none
    else if !(isDirectory σ b.dropLast) then none
    else
      match lookup σ b with
      | none => some (renamed σ a b)
      | some .dir => if na = .dir ∧ isEmptyBelow σ b then some (renamed σ a b) else none
      | some (.file _) => if na = .dir then none else some (renamed σ a b)

end FS

/-! ## Worlds, traces and computations -/

/-- What the program does that can be seen from outside, apart from the
filesystem: the calls of `std::system` and the lines written to `std::cout` and
`std::cerr`.  A log line is recorded by its kind and operands, not by its text. -/
inductive Event where
  /-- A call `std::system(command)`; `seen` is the tree at the moment of the call. -/
  | system (command : String) (seen : FS)
  /-- Line 26: "Error running command for file: ". -/
  | undfsError (filePath : Path)
  /-- Line 29: "Successfully executed command for: ". -/
  | undfsOk (filePath : Path)
  /-- Line 48: "Keeping file: ". -/
  | keeping (filePath : Path)
  /-- Line 56: "Deleting file: ". -/
  | deleting (filePath : Path)
  /-- Lines 62, 92 and 180: "Filesystem error: ", written by a `catch`. -/
  | fsError
  /-- Line 77: "Skipping file: ". -/
  | skipping (fileName : String)
  /-- Line 125: "Error: levels folder not found in the current directory!". -/
  | levelsNotFound
  /-- Line 148: "Moved ... to ...". -/
  | moved (levelFolderName : String) (newFolderPath : Path)
  /-- Line 152: "Running command: ". -/
  | running (command : String)
  /-- Line 157: "Error running batch file for: ". -/
  | batchError (levelFolderName : String)
  /-- Line 163: "Deleted folder: ". -/
  | deletedFolder (specialName : String)
  /-- Line 167: "No mapping found for level: ..., skipping...". -/
  | noMapping (levelFolderName : String)
  /-- Line 176: "Deleted LEVELS folder: ". -/
  | deletedLevels (levelsFolderPath : Path)
  deriving DecidableEq, Repr

/-- Everything a run can change. -/
structure World where
  /-- The tree below the working directory. -/
  fs : FS
  /-- The fault schedule: each `std::filesystem` call that can throw consumes the
  head; `true` makes that call raise `filesystem_error` for a reason outside
  the tree (permissions, I/O).  An exhausted schedule injects no fault. -/
  faults : List Bool
  /-- The trace so far, oldest event first. -/
  out : List Event
  deriving DecidableEq, Repr

/-- What the program is given: the text of the working directory and the
behaviour of `std::system`, which runs an external command on the tree and
returns the tree it leaves and its exit status. -/
structure Env where
  /-- The text of `fs::current_path()`. -/
  cwd : String
  /-- The external world behind `std::system`. -/
  system : String → FS → FS × Int

/-- How a computation ends: normally with a value, or with a `filesystem_error`
in flight.  Either way the world reached so far stays. -/
inductive Res (α : Type) where
  | ok (a : α) (w : World)
  | throw (w : World)
  deriving DecidableEq, Repr

/-- The world a computation ended in. -/
def Res.world {α : Type} : Res α → World
  | .ok _ w => w
  | .throw w => w

/-- Whether a computation ended normally. -/
def Res.returned {α : Type} : Res α → Bool
  | .ok _ _ => true
  | .throw _ => false

/-- A computation: a function of the world. -/
def M (α : Type) : Type := World → Res α

instance : Monad M where
  pure a := fun w => .ok a w
  bind m f := fun w =>
    match m w with
    | .ok a w1 => f a w1
    | .throw w1 => .throw w1

/-- The statement `try { body } catch (const fs::filesystem_error&) { handler }`. -/
def tryCatch (body handler : M Unit) : M Unit := fun w =>
  match body w with
  | .ok a w1 => .ok a w1
  | .throw w1 => handler w1

/-- Write one event to the trace. -/
def emit (e : Event) : M Unit := fun w =>
  .ok () { w with out := w.out ++ [e] }

/-- The world after one filesystem call has consumed the head of the fault schedule. -/
def World.step (w : World) : World :=
  { w with faults := w.faults.tail }

/-- Consume the head of the fault schedule; raise if it is `true`. -/
def tick : M Unit := fun w =>
  match w.faults with
  | [] => .ok () w
  | false :: _ => .ok () w.step
  | true :: _ => .throw w.step

/-- Read the tree. -/
def getFS : M FS := fun w => .ok w.fs w

/-- Install the tree an operation produced, or raise when it failed. -/
def putFS : Option FS → M Unit
  | some σ => fun w => .ok () { w with fs := σ }
  | none => fun w => .throw w

/-- The call `fs::exists(p)`. -/
def fsExists (p : Path) : M Bool := do
  tick
  let σ ← getFS
  pure (σ.pathExists p)

/-- The call `fs::is_directory(p)`. -/
def fsIsDirectory (p : Path) : M Bool := do
  tick
  let σ ← getFS
  pure (σ.isDirectory p)

/-- The call `fs::remove(p)`. -/
def fsRemove (p : Path) : M Unit := do
  tick
  let σ ← getFS
  putFS (σ.remove p)

/-- The call `fs::remove_all(p)`. -/
def fsRemoveAll (p : Path) : M Unit := do
  tick
  let σ ← getFS
  putFS (some (σ.removeAll p))

/-- The call `fs::create_directories(p)`. -/
def fsCreateDirectories (p : Path) : M Unit := do
  tick
  let σ ← getFS
  putFS (σ.createDirectories p)

/-- The call `fs::rename(a, b)`. -/
def fsRename (a b : Path) : M Unit := do
  tick
  let σ ← getFS
  putFS (σ.rename a b)

/-- The construction `fs::directory_iterator(d)`: it raises when `d` is not a
directory; otherwise the loop will see the entries `d` has now, as paths. -/
def directoryIterator (d : Path) : M (List Path) := do
  tick
  let σ ← getFS
  if σ.isDirectory d then pure ((σ.children d).map (fun n => d ++ [n]))
  else fun w => .throw w

/-- The increment of a `directory_iterator` at the end of each round of a loop. -/
def advance : M Unit := tick

/-- The call `std::system(command)`: the external command runs on the tree. -/
def system (env : Env) (command : String) : M Int := fun w =>
  .ok (env.system command w.fs).2
    { w with fs := (env.system command w.fs).1, out := w.out ++ [.system command w.fs] }

/-! ## The program -/

/-- Source line 19: the command line handed to `std::system` for one archive. -/
def undfsCommand (cwd : String) (filePath : Path) : String :=
  "undfs.exe \"" ++ pathString cwd filePath ++ "\""

/-- Source lines 17-31. -/
def runUndfsCommand (env : Env) (filePath : Path) : M Unit := do
  let command := undfsCommand env.cwd filePath
  let result ← system env command
  if result != 0 then
    emit (.undfsError filePath)
  else
    emit (.undfsOk filePath)

/-- Source lines 39-58: the body of the loop of `deleteFilesInFolder` for one entry. -/
def deleteEntry (keepAudioFiles : Bool) (filePath : Path) : M Unit :=
  match cleanupDecision keepAudioFiles filePath with
  | .kept => emit (.keeping filePath)
  | .deleted => do
    emit (.deleting filePath)
    fsRemove filePath
  | .ignored => pure ()

/-- Source lines 38-59: the loop of `deleteFilesInFolder` over the entries. -/
def deleteLoop (keepAudioFiles : Bool) : List Path → M Unit
  | [] => pure ()
  | filePath :: rest => do
    deleteEntry keepAudioFiles filePath
    advance
    deleteLoop keepAudioFiles rest

/-- Source lines 37-59: the `try` block of `deleteFilesInFolder`.  The working
directory is the path `[]`. -/
def deleteFilesInFolderBody (keepAudioFiles : Bool) : M Unit := do
  let currentPath : Path := []
  let entries ← directoryIterator currentPath
  deleteLoop keepAudioFiles entries

/-- Source lines 33-64. -/
def deleteFilesInFolder (keepAudioFiles : Bool) : M Unit :=
  tryCatch (deleteFilesInFolderBody keepAudioFiles) (emit .fsError)

/-- Source lines 72-85: the body of the loop of `unpackFiles` for one entry. -/
def unpackEntry (env : Env) (skipAudioFiles : Bool) (filePath : Path) : M Unit :=
  match unpackDecision skipAudioFiles filePath with
  | .skipped => emit (.skipping (filename filePath))
  | .passed => runUndfsCommand env filePath
  | .ignored => pure ()

/-- Source lines 71-86: the loop of `unpackFiles` over the entries. -/
def unpackLoop (env : Env) (skipAudioFiles : Bool) : List Path → M Unit
  | [] => pure ()
  | filePath :: rest => do
    unpackEntry env skipAudioFiles filePath
    advance
    unpackLoop env skipAudioFiles rest

/-- Source lines 71-86: the unpack stage, the loop together with the construction
of its iterator. -/
def unpackStage (env : Env) (skipAudioFiles : Bool) : M Unit := do
  let currentPath : Path := []
  let entries ← directoryIterator currentPath
  unpackLoop env skipAudioFiles entries

/-- Source lines 70-89: the `try` block of `unpackFiles`.  The call of
`deleteFilesInFolder` stands inside it, after the loop. -/
def unpackFilesBody (env : Env) (skipAudioFiles : Bool) : M Unit := do
  unpackStage env skipAudioFiles
  deleteFilesInFolder skipAudioFiles

/-- Source lines 66-94. -/
def unpackFiles (env : Env) (skipAudioFiles : Bool) : M Unit :=
  tryCatch (unpackFilesBody env skipAudioFiles) (emit .fsError)

/-- The stage isolation that section 4.1, step 4, of the specification describes
for Unpack, written out: an error of the unpack stage is caught and logged by
that stage, and the cleanup stage runs all the same.  This follows the words of
the specification, not the source; it is what `unpackFiles` is compared with. -/
def unpackFilesIsolated (env : Env) (skipAudioFiles : Bool) : M Unit := do
  tryCatch (unpackStage env skipAudioFiles) (emit .fsError)
  deleteFilesInFolder skipAudioFiles

/-- Source lines 113-115: `fs::exists(p) && fs::is_directory(p)`. -/
def folderExists (folderPath : Path) : M Bool := do
  let e ← fsExists folderPath
  if e then fsIsDirectory folderPath else pure false

/-- Source line 151: the command line handed to `std::system` for one alias. -/
def packCommand (cwd : String) (specialName : String) : String :=
  "pack_dfs_Drag'n'Drop.bat \"" ++ pathString cwd [specialName] ++ "\""

/-- Source lines 132-169: the body of the loop of `moveLevelFolders` for one entry
of `levels`. -/
def levelEntry (env : Env) (entry : Path) : M Unit := do
  let isDir ← fsIsDirectory entry
  if isDir then
    let levelFolderName := filename entry
    match levelMapFind levelFolderName with
    | some specialName =>
      let newFolderPath : Path := [specialName, "LEVELS"]
      fsCreateDirectories newFolderPath
      fsRename entry (newFolderPath ++ [filename entry])
      emit (.moved levelFolderName newFolderPath)
      let command := packCommand env.cwd specialName
      emit (.running command)
      let result ← system env command
      if result != 0 then
        emit (.batchError levelFolderName)
      let stagingExists ← fsExists [specialName]
      if stagingExists then
        fsRemoveAll [specialName]
        emit (.deletedFolder specialName)
    | none => emit (.noMapping levelFolderName)

/-- Source lines 131-170: the loop of `moveLevelFolders` over the entries. -/
def levelsLoop (env : Env) : List Path → M Unit
  | [] => pure ()
  | entry :: rest => do
    levelEntry env entry
    advance
    levelsLoop env rest

/-- Source lines 130-177: the `try` block of `moveLevelFolders`. -/
def moveLevelFoldersBody (env : Env) (levelsDir : Path) : M Unit := do
  let entries ← directoryIterator levelsDir
  levelsLoop env entries
  let levelsFolderPath : Path := ["LEVELS"]
  let levelsFolderExists ← fsExists levelsFolderPath
  if levelsFolderExists then
    fsRemoveAll levelsFolderPath
    emit (.deletedLevels levelsFolderPath)

/-- Source lines 118-182.  The test `folderExists(levelsDir)` stands before the
`try` block, so an error it raises leaves the function. -/
def moveLevelFolders (env : Env) : M Unit := do
  let levelsDir : Path := ["levels"]
  let found ← folderExists levelsDir
  if !found then
    emit .levelsNotFound
  else
    tryCatch (moveLevelFoldersBody env levelsDir) (emit .fsError)

/-- The run of `moveLevelFolders` cut after the rounds of its loop for the
entries `first`, which are the first names of the listing of `levels`: source
lines 118-170 with the loop stopped there.  Nothing is caught: an error ends
the computation where it is raised. -/
def moveLevelFoldersUpTo (env : Env) (first : List String) : M Unit := do
  let levelsDir : Path := ["levels"]
  let found ← folderExists levelsDir
  if !found then
    emit .levelsNotFound
  else
    let _ ← directoryIterator levelsDir
    levelsLoop env (first.map (fun n => levelsDir ++ [n]))

/-! ## Observations on a trace -/

/-- The command lines of the calls of `std::system` in a trace, in order. -/
def commands (out : List Event) : List String :=
  out.filterMap (fun e => match e with
    | .system command _ => some command
    | _ => none)

/-- The calls of `std::system` in a trace, each with the tree it started from. -/
def invocations (out : List Event) : List (String × FS) :=
  out.filterMap (fun e => match e with
    | .system command seen => some (command, seen)
    | _ => none)

/-- The command lines of the calls of `std::system` that a run started in `w`
added to the trace. -/
def commandsSince {α : Type} (w : World) (r : Res α) : List String :=
  (commands r.world.out).drop (commands w.out).length

/-- The entries of a listing that the unpack stage hands to the unpacker, in the
words of the specification: the lower-cased extension is `.dfs`, and the entry
is not an audio archive to be skipped. -/
def passedToUnpacker (skipAudioFiles : Bool) (n : String) : Bool :=
  toLower (extension [n]) == ".dfs" &&
    !(skipAudioFiles && (toLower n == "audio1.dfs" || toLower n == "audio2.dfs"))

/-- ASCII lower-casing of a text as the specification means it, written with
the library function `Char.toLower` and not with the `toLower` of the program. -/
def asciiLower (s : String) : String :=
  ⟨s.data.map Char.toLower⟩

/-- The entries of a listing that Unpack is to hand to the unpacker, stated
without any function of the program: the extension, lower-cased, is `.dfs`, and
the entry is not an audio archive to be skipped. -/
def dfsToUnpack (skipAudioFiles : Bool) (n : String) : Bool :=
  asciiLower (extension [n]) == ".dfs" &&
    !(skipAudioFiles && (asciiLower n == "audio1.dfs" || asciiLower n == "audio2.dfs"))

/-- The calls of `std::system`, each with the tree it started from, that a run
started in `w` added to the trace. -/
def invocationsSince {α : Type} (w : World) (r : Res α) : List (String × FS) :=
  (invocations r.world.out).drop (invocations w.out).length

/-- The four reserved audio filenames, in the words of the specification. -/
def isAudioName (n : String) : Bool :=
  toLower n == "audio1.dfs" || toLower n == "audio2.dfs" ||
    toLower n == "audio1.000" || toLower n == "audio2.000"

/-! ## Concrete worlds used by the examples -/

/-- An external world in which every command succeeds and leaves the tree as it is. -/
def quietEnv : Env :=
  { cwd := "C:/game", system := fun _ σ => (σ, 0) }

/-- An external world in which every command fails, after writing a log file
into the working directory. -/
def failingEnv : Env :=
  { cwd := "C:/game", system := fun c σ => (σ ++ [(["error.log"], .file c)], 1) }

/-- A working directory with one archive, one audio archive in mixed case, one
unrelated file and a directory whose name ends in `.dfs`. -/
def archiveWorld : World :=
  { fs := [(["FOO.DFS"], .file "a"), (["Audio1.dfs"], .file "b"), (["foo.000"], .file "c"),
           (["readme.txt"], .file "d"), (["x.dfs"], .dir)],
    faults := [], out := [] }

/-- A working directory with one archive, in which the first increment of a
directory iterator raises `filesystem_error`. -/
def faultyWorld : World :=
  { fs := [(["foo.dfs"], .file "data")], faults := [false, true], out := [] }

/-- A `levels` folder with one level of the table and one folder the table does
not know, each with a file in it, and a stray top-level `LEVELS` folder. -/
def levelsWorld : World :=
  { fs := [(["levels"], .dir),
           (["levels", "CH01_HOBBITON"], .dir),
           (["levels", "CH01_HOBBITON", "hill.bin"], .file "h"),
           (["levels", "UNKNOWN_LEVEL"], .dir),
           (["levels", "UNKNOWN_LEVEL", "u.bin"], .file "u"),
           (["LEVELS"], .dir)],
    faults := [], out := [] }

/-- A working directory without a `levels` folder: `levels` is a regular file. -/
def noLevelsWorld : World :=
  { fs := [(["levels"], .file "not a folder"), (["Ch01_Hob"], .dir)],
    faults := [], out := [] }

/-! ## The same program on a case-insensitive filesystem

On Windows, the platform of `undfs.exe` and of the batch file, a name finds an
entry whatever the case of its letters, and the entry keeps the spelling it
was created with.  Here each `std::filesystem` call first resolves its path to
the stored spelling and then acts as above; the text of the program is the
same, word for word. -/

namespace CaseInsensitive

/-- The stored spelling of a path: component by component, the child whose name
agrees up to the case of ASCII letters, or the component as given where there is
none.  `pre` is the part already resolved. -/
def resolveFrom (σ : FS) (pre : Path) : List String → Path
  | [] => pre
  | c :: cs =>
    match (σ.children pre).find? (fun n => asciiLower n == asciiLower c) with
    | some n => resolveFrom σ (pre ++ [n]) cs
    | none => pre ++ c :: cs

/-- The stored spelling of a path. -/
def resolve (σ : FS) (p : Path) : Path :=
  resolveFrom σ [] p

/-- The call `fs::exists(p)`. -/
def fsExists (p : Path) : M Bool := fun w =>
  HobbitPacker.fsExists (resolve w.fs p) w

/-- The call `fs::is_directory(p)`. -/
def fsIsDirectory (p : Path) : M Bool := fun w =>
  HobbitPacker.fsIsDirectory (resolve w.fs p) w

/-- The call `fs::remove_all(p)`. -/
def fsRemoveAll (p : Path) : M Unit := fun w =>
  HobbitPacker.fsRemoveAll (resolve w.fs p) w

/-- The call `fs::create_directories(p)`. -/
def fsCreateDirectories (p : Path) : M Unit := fun w =>
  HobbitPacker.fsCreateDirectories (resolve w.fs p) w

/-- The call `fs::rename(a, b)`. -/
def fsRename (a b : Path) : M Unit := fun w =>
  HobbitPacker.fsRename (resolve w.fs a) (resolve w.fs b) w

/-- The construction `fs::directory_iterator(d)`: the entries are those of the
directory `d` resolves to, as paths below `d` as the program spelled it. -/
def directoryIterator (d : Path) : M (List Path) := do
  tick
  let σ ← getFS
  if σ.isDirectory (resolve σ d) then pure ((σ.children (resolve σ d)).map (fun n => d ++ [n]))
  else fun w => .throw w

/-- Source lines 113-115: `fs::exists(p) && fs::is_directory(p)`. -/
def folderExists (folderPath : Path) : M Bool := do
  let e ← fsExists folderPath
  if e then fsIsDirectory folderPath else pure false

/-- Source lines 132-169: the body of the loop of `moveLevelFolders` for one entry
of `levels`. -/
def levelEntry (env : Env) (entry : Path) : M Unit := do
  let isDir ← fsIsDirectory entry
  if isDir then
    let levelFolderName := filename entry
    match levelMapFind levelFolderName with
    | some specialName =>
      let newFolderPath : Path := [specialName, "LEVELS"]
      fsCreateDirectories newFolderPath
      fsRename entry (newFolderPath ++ [filename entry])
      emit (.moved levelFolderName newFolderPath)
      let command := packCommand env.cwd specialName
      emit (.running command)
      let result ← system env command
      if result != 0 then
        emit (.batchError levelFolderName)
      let stagingExists ← fsExists [specialName]
      if stagingExists then
        fsRemoveAll [specialName]
        emit (.deletedFolder specialName)
    | none => emit (.noMapping levelFolderName)

/-- Source lines 131-170: the loop of `moveLevelFolders` over the entries. -/
def levelsLoop (env : Env) : List Path → M Unit
  | [] => pure ()
  | entry :: rest => do
    levelEntry env entry
    advance
    levelsLoop env rest

/-- Source lines 130-177: the `try` block of `moveLevelFolders`. -/
def moveLevelFoldersBody (env : Env) (levelsDir : Path) : M Unit := do
  let entries ← directoryIterator levelsDir
  levelsLoop env entries
  let levelsFolderPath : Path := ["LEVELS"]
  let levelsFolderExists ← fsExists levelsFolderPath
  if levelsFolderExists then
    fsRemoveAll levelsFolderPath
    emit (.deletedLevels levelsFolderPath)

/-- Source lines 118-182.  The test `folderExists(levelsDir)` stands before the
`try` block, so an error it raises leaves the function. -/
def moveLevelFolders (env : Env) : M Unit := do
  let levelsDir : Path := ["levels"]
  let found ← folderExists levelsDir
  if !found then
    emit .levelsNotFound
  else
    tryCatch (moveLevelFoldersBody env levelsDir) (emit .fsError)

end CaseInsensitive

/-- A computation keeps the paths in `S`: whatever way it ends, the node at each
of them is the one it started with. -/
def Keeps {α : Type} (S : Path → Prop) (m : M α) : Prop :=
  ∀ w q, S q → FS.lookup (m w).world.fs q = FS.lookup w.fs q

/-- A computation only adds to the trace. -/
def Extends {α : Type} (m : M α) : Prop :=
  ∀ w, ∃ evs, (m w).world.out = w.out ++ evs

/-- The external commands leave the `levels` folder and everything in it alone. -/
def LeavesLevels (env : Env) : Prop :=
  ∀ (command : String) (σ : FS) (q : Path), ["levels"] <+: q →
    FS.lookup (env.system command σ).1 q = FS.lookup σ q

/-- The packer, called for one alias, leaves alone the top-level folders named
by the other aliases of the table, and everything in them. -/
def LeavesOtherStaging (env : Env) : Prop :=
  ∀ (A B : String) (σ : FS) (q : Path), B ∈ levelMap.map Prod.snd → B ≠ A → [B] <+: q →
    FS.lookup (env.system (packCommand env.cwd A) σ).1 q = FS.lookup σ q

/-- The commands the loop of `moveLevelFolders` issues for a listing of `levels`
read in the tree `σ`: one for each name that is a directory and has an alias,
in the order of the listing. -/
def packCommandsFor (env : Env) (σ : FS) (names : List String) : List String :=
  (names.filter (fun n => σ.isDirectory ["levels", n])).filterMap
    (fun n => (levelMapFind n).map (packCommand env.cwd))

/-- The tree holds regular files only. -/
def OnlyFiles (σ : FS) : Prop :=
  ∀ e ∈ σ, ∃ c, e.2 = .file c

/-- No fault is scheduled: every call fails only for a reason visible in the tree. -/
def NoFaults (w : World) : Prop :=
  ∀ b ∈ w.faults, b = false

instance (w : World) : Decidable (NoFaults w) := by
  unfold NoFaults
  infer_instance

theorem tolower_eq_dot (c : Char) : tolower c = '.' ↔ c = '.' := by
  unfold tolower
  split
  · rename_i h
    constructor
    · intro h2
      exfalso
      have : (Char.ofNat (c.toNat + 32)).toNat = 46 := by rw [h2]; rfl
      obtain ⟨h1, h3⟩ := h
      interval_cases hc : c.toNat <;> simp at this
    · intro h2; subst h2; simp at h
  · rfl

theorem lastDotSuffix_map (cs : List Char) :
    lastDotSuffix (cs.map tolower) = (lastDotSuffix cs).map (List.map tolower) := by
  induction cs with
  | nil => rfl
  | cons c cs ih =>
    simp only [List.map_cons, lastDotSuffix, ih]
    cases h : lastDotSuffix cs with
    | some s => simp
    | none =>
      simp only [Option.map_none']
      by_cases hc : c = '.'
      · subst hc; simp [(tolower_eq_dot '.').2 rfl]
      · have : tolower c ≠ '.' := fun h2 => hc ((tolower_eq_dot c).1 h2)
        simp [hc, this]

theorem map_tolower_eq_dot (l : List Char) : l.map tolower = ['.'] ↔ l = ['.'] := by
  constructor
  · intro h
    rcases l with _ | ⟨c, _ | ⟨d, l⟩⟩ <;> simp at h
    rw [(tolower_eq_dot c).1 h]
  · intro h; subst h; rfl

theorem map_tolower_eq_dotdot (l : List Char) : l.map tolower = ['.', '.'] ↔ l = ['.', '.'] := by
  constructor
  · intro h
    rcases l with _ | ⟨c, _ | ⟨d, _ | ⟨e, l⟩⟩⟩ <;> simp at h
    rw [(tolower_eq_dot c).1 h.1, (tolower_eq_dot d).1 h.2]
  · intro h; subst h; rfl

theorem string_eq_iff_data (s : String) (l : List Char) : s = ⟨l⟩ ↔ s.data = l := by
  constructor
  · intro h; subst h; rfl
  · intro h; subst h; rfl

/-- Lower-casing commutes with taking the extension of a name. -/
theorem toLower_extensionOfName (f : String) :
    toLower (extensionOfName f) = extensionOfName (toLower f) := by
  have h1 : (toLower f = ".") ↔ f = "." := by
    rw [show ("." : String) = ⟨['.']⟩ from rfl, string_eq_iff_data, string_eq_iff_data]
    exact map_tolower_eq_dot f.data
  have h2 : (toLower f = "..") ↔ f = ".." := by
    rw [show (".." : String) = ⟨['.', '.']⟩ from rfl, string_eq_iff_data, string_eq_iff_data]
    exact map_tolower_eq_dotdot f.data
  unfold extensionOfName
  simp only [h1, h2]
  split
  · rfl
  · show toLower _ = match (f.data.map tolower) with | [] => "" | _ :: cs => _
    cases hd : f.data with
    | nil => rfl
    | cons c cs =>
      simp only [List.map_cons, lastDotSuffix_map]
      cases lastDotSuffix cs <;> rfl

theorem toLower_extension (p q : Path) (h : toLower (filename p) = toLower (filename q)) :
  toLower (extension p) = toLower (extension q) := by
  unfold extension
  rw [toLower_extensionOfName, toLower_extensionOfName, h]

/-- C3.  Classification is case-insensitive: two paths whose filenames become
equal after `toLower` receive the same decision in the unpack stage (skipped,
passed to the unpacker, ignored) and the same decision in the cleanup stage
(kept, deleted, ignored), for either value of the flag.  In particular `FOO.DFS`,
`foo.Dfs` and `foo.dfs` are all passed to the unpacker and all deleted. -/
theorem classification_case_insensitive (skipAudioFiles : Bool) (p q : Path)
    (h : toLower (filename p) = toLower (filename q)) :
    unpackDecision skipAudioFiles p = unpackDecision skipAudioFiles q ∧
    cleanupDecision skipAudioFiles p = cleanupDecision skipAudioFiles q ∧
    (∀ s, unpackDecision s ["FOO.DFS"] = .passed ∧ unpackDecision s ["foo.Dfs"] = .passed ∧
      unpackDecision s ["foo.dfs"] = .passed ∧ cleanupDecision s ["FOO.DFS"] = .deleted ∧
      cleanupDecision s ["foo.Dfs"] = .deleted ∧ cleanupDecision s ["foo.dfs"] = .deleted) := by
  refine ⟨?_, ?_, by decide⟩
  · unfold unpackDecision
    simp only [h, toLower_extension p q h]
  · unfold cleanupDecision
    simp only [h, toLower_extension p q h]

/-- C3, an instance: `Audio1.DFS` here and `AUDIO1.dfs` in another folder. -/
theorem classification_case_insensitive_witness :
    toLower (filename ["Audio1.DFS"]) = toLower (filename ["saves", "AUDIO1.dfs"]) ∧
    unpackDecision true ["Audio1.DFS"] = unpackDecision true ["saves", "AUDIO1.dfs"] :=
  ⟨by decide, (classification_case_insensitive true ["Audio1.DFS"] ["saves", "AUDIO1.dfs"] (by decide)).1⟩

theorem levelMapFind_mem {k a : String} (h : levelMapFind k = some a) : (k, a) ∈ levelMap := by
  unfold levelMapFind at h
  cases hf : levelMap.find? (fun kv => kv.1 == k) with
  | none => simp [hf] at h
  | some kv =>
    simp only [hf, Option.map_some', Option.some.injEq] at h
    have hm := List.mem_of_find?_eq_some hf
    have hk := List.find?_some hf
    simp only [beq_iff_eq] at hk
    subst hk; subst h
    exact hm

/-- No two keys of the table share an alias. -/
theorem levelMapFind_injective {k1 k2 a : String}
    (h1 : levelMapFind k1 = some a) (h2 : levelMapFind k2 = some a) : k1 = k2 := by
  have m1 := levelMapFind_mem h1
  have m2 := levelMapFind_mem h2
  have key : ∀ x ∈ levelMap, ∀ y ∈ levelMap, x.2 = y.2 → x.1 = y.1 := by decide
  exact key _ m1 _ m2 rfl

/-- C8.  The table `levelMap` is well formed: it has 12 entries, its keys are
pairwise distinct, every alias is exactly 8 characters long, its aliases are
pairwise distinct, and the lookup is injective: two level names that are mapped
to the same alias are the same name, so no two levels share a staging folder. -/
theorem levelMap_wellFormed :
    levelMap.length = 12 ∧
    (levelMap.map Prod.fst).Nodup ∧
    (∀ kv ∈ levelMap, kv.2.length = 8) ∧
    (levelMap.map Prod.snd).Nodup ∧
    (∀ k1 k2 a, levelMapFind k1 = some a → levelMapFind k2 = some a → k1 = k2) := by
  refine ⟨by decide, by decide, by decide, by decide, ?_⟩
  intro k1 k2 a h1 h2
  exact levelMapFind_injective h1 h2

/-! ## Facts about the tree -/

namespace FS

theorem lookup_nil (σ : FS) : lookup σ [] = some .dir := by
  simp [lookup]

theorem lookup_of_ne_nil (σ : FS) {p : Path} (hp : p ≠ []) :
    lookup σ p = (σ.find? (fun e => e.1 == p)).map Prod.snd := by
  simp [lookup, hp]

theorem lookup_removeAll (σ : FS) {p : Path} (q : Path) (hp : p ≠ []) :
    lookup (removeAll σ p) q = if p <+: q then none else lookup σ q := by
  by_cases hq : q = []
  · subst hq
    have : ¬ p <+: [] := by simpa using hp
    simp [lookup_nil, this]
  · rw [lookup_of_ne_nil _ hq, lookup_of_ne_nil _ hq]
    unfold removeAll
    rw [List.find?_filter]
    by_cases h2 : p <+: q
    · rw [if_pos h2]
      have : List.find? (fun a : Path × Node =>
          decide ((!decide (p <+: a.1)) = true ∧ (a.1 == q) = true)) σ = none := by
        rw [List.find?_eq_none]
        intro x _ hx
        simp only [Bool.not_eq_true', decide_eq_false_iff_not, beq_iff_eq,
          decide_eq_true_eq] at hx
        exact hx.1 (hx.2 ▸ h2)
      rw [this]; rfl
    · rw [if_neg h2]
      have : (fun a : Path × Node => decide ((!decide (p <+: a.1)) = true ∧ (a.1 == q) = true))
          = (fun e => e.1 == q) := by
        funext a
        by_cases ha : a.1 = q
        · simp [ha, h2]
        · simp [ha]
      rw [this]

theorem childName_eq_some {d p : Path} {n : String} :
    childName d p = some n ↔ p = d ++ [n] := by
  unfold childName
  constructor
  · intro h
    split at h
    · rename_i hpre
      obtain ⟨t, rfl⟩ := hpre
      simp only [List.drop_left'] at h
      rcases t with _ | ⟨a, _ | ⟨b, t⟩⟩ <;> simp at h
      rw [h]
    · cases h
  · intro h
    subst h
    simp

theorem mem_children {σ : FS} {d : Path} {n : String} :
    n ∈ children σ d ↔ (lookup σ (d ++ [n])).isSome := by
  have hne : d ++ [n] ≠ [] := by simp
  rw [lookup_of_ne_nil _ hne]
  unfold children
  rw [List.mem_dedup, List.mem_filterMap]
  constructor
  · rintro ⟨e, he, hc⟩
    rw [childName_eq_some] at hc
    cases hf : List.find? (fun e => e.1 == d ++ [n]) σ with
    | some x => simp
    | none =>
      rw [List.find?_eq_none] at hf
      exact absurd (by simpa using hc) (hf e he)
  · intro h
    cases hf : List.find? (fun e => e.1 == d ++ [n]) σ with
    | none => simp [hf] at h
    | some x =>
      refine ⟨x, List.mem_of_find?_eq_some hf, ?_⟩
      rw [childName_eq_some]
      simpa using List.find?_some hf

theorem nodup_children (σ : FS) (d : Path) : (children σ d).Nodup :=
  List.nodup_dedup _

/-- After a successful `remove`, the path is gone. -/
theorem lookup_remove_self {σ σ1 : FS} {p : Path} (hp : p ≠ []) (h : remove σ p = some σ1) :
    lookup σ1 p = none := by
  unfold remove at h
  split at h
  · rename_i hl
    cases h; exact hl
  · cases h; rw [lookup_removeAll _ _ hp]; simp
  · split at h
    · cases h; rw [lookup_removeAll _ _ hp]; simp
    · cases h

/-- A successful `remove` changes nothing outside the path. -/
theorem lookup_remove_other {σ σ1 : FS} {p : Path} (q : Path) (hp : p ≠ [])
    (h : remove σ p = some σ1) (hq : ¬ p <+: q) : lookup σ1 q = lookup σ q := by
  unfold remove at h
  split at h
  · cases h; rfl
  · cases h; rw [lookup_removeAll _ _ hp]; simp [hq]
  · split at h
    · cases h; rw [lookup_removeAll _ _ hp]; simp [hq]
    · cases h

/-- A successful `remove` only ever loses paths. -/
theorem lookup_remove_mono {σ σ1 : FS} {p : Path} (q : Path) (hp : p ≠ [])
    (h : remove σ p = some σ1) : lookup σ1 q = none ∨ lookup σ1 q = lookup σ q := by
  by_cases hq : p <+: q
  · unfold remove at h
    split at h
    · cases h; right; rfl
    · cases h; left; rw [lookup_removeAll _ _ hp]; simp [hq]
    · split at h
      · cases h; left; rw [lookup_removeAll _ _ hp]; simp [hq]
      · cases h
  · right; exact lookup_remove_other q hp h hq

end FS

/-! ## Facts about computations -/

theorem bind_apply {α β : Type} (m : M α) (f : α → M β) (w : World) :
    (m >>= f) w = match m w with
      | .ok a w1 => f a w1
      | .throw w1 => .throw w1 := rfl

theorem pure_apply {α : Type} (a : α) (w : World) : (pure a : M α) w = .ok a w := rfl

theorem emit_apply (e : Event) (w : World) :
    emit e w = .ok () { w with out := w.out ++ [e] } := rfl

theorem tick_cases (w : World) : tick w = .ok () w.step ∨ tick w = .throw w.step := by
  unfold tick
  rcases h : w.faults with _ | ⟨b, rest⟩
  · left
    have : w.step = w := by
      cases w; simp_all [World.step]
    simp [this]
  · cases b <;> simp

theorem NoFaults.step {w : World} (h : NoFaults w) : NoFaults w.step := by
  intro b hb
  exact h b (List.mem_of_mem_tail hb)

theorem tick_ok {w : World} (h : NoFaults w) : tick w = .ok () w.step := by
  unfold tick
  rcases hf : w.faults with _ | ⟨b, rest⟩
  · have : w.step = w := by
      cases w; simp_all [World.step]
    simp [this]
  · have : b = false := h b (by simp [hf])
    subst this
    simp

@[simp] theorem step_fs (w : World) : w.step.fs = w.fs := rfl
@[simp] theorem step_out (w : World) : w.step.out = w.out := rfl

theorem commands_append (a b : List Event) : commands (a ++ b) = commands a ++ commands b := by
  unfold commands
  exact List.filterMap_append _ _ _

theorem invocations_append (a b : List Event) :
    invocations (a ++ b) = invocations a ++ invocations b := by
  unfold invocations
  exact List.filterMap_append _ _ _

theorem commands_snoc (l : List Event) (e : Event) :
    commands (l ++ [e]) = commands l ++
      (match e with
        | .system c _ => [c]
        | _ => []) := by
  rw [commands_append]
  cases e <;> rfl

theorem invocations_snoc (l : List Event) (e : Event) :
    invocations (l ++ [e]) = invocations l ++
      (match e with
        | .system c σ => [(c, σ)]
        | _ => []) := by
  rw [invocations_append]
  cases e <;> rfl

/-! ## The unpack stage -/

/-- One round of the loop of `unpackFiles` always ends normally; it calls
`std::system` once when the entry is passed and not at all otherwise. -/
theorem unpackEntry_spec (env : Env) (skip : Bool) (p : Path) (w : World) :
    ∃ w1, unpackEntry env skip p w = .ok () w1 ∧ w1.faults = w.faults ∧
      commands w1.out = commands w.out ++
        (if unpackDecision skip p = .passed then [undfsCommand env.cwd p] else []) := by
  unfold unpackEntry
  cases hd : unpackDecision skip p with
  | skipped => exact ⟨_, rfl, rfl, by simp [emit_apply, commands_snoc]⟩
  | ignored => exact ⟨_, rfl, rfl, by simp⟩
  | passed =>
    simp only [runUndfsCommand, bind_apply, system]
    split
    · exact ⟨_, rfl, rfl, by
        simp only [emit_apply, commands_append, List.append_assoc, if_true]; rfl⟩
    · exact ⟨_, rfl, rfl, by
        simp only [emit_apply, commands_append, List.append_assoc, if_true]; rfl⟩

/-- The loop of `unpackFiles` passes the entries it reaches, in order; when no
fault is scheduled it reaches all of them and ends normally. -/
theorem unpackLoop_spec (env : Env) (skip : Bool) (entries : List Path) (w : World) :
    ∃ done, done <+: entries ∧
      commands (unpackLoop env skip entries w).world.out = commands w.out ++
        (done.filter (fun p => unpackDecision skip p = .passed)).map (undfsCommand env.cwd) ∧
      (NoFaults w → done = entries ∧ (unpackLoop env skip entries w).returned = true ∧
        NoFaults (unpackLoop env skip entries w).world ∧
        (unpackLoop env skip entries w).world.faults.length ≤ w.faults.length) := by
  induction entries generalizing w with
  | nil =>
    exact ⟨[], List.prefix_refl _, by simp [unpackLoop, pure_apply, Res.world],
      fun h => ⟨rfl, rfl, h, le_refl _⟩⟩
  | cons p rest ih =>
    obtain ⟨w1, h1, hf1, hc1⟩ := unpackEntry_spec env skip p w
    rcases tick_cases w1 with ht | ht
    · have hloop : unpackLoop env skip (p :: rest) w = unpackLoop env skip rest w1.step := by
        simp only [unpackLoop, bind_apply, h1, advance, ht]
      obtain ⟨done, hpre, hc, hnf⟩ := ih w1.step
      refine ⟨p :: done, ?_, ?_, ?_⟩
      · exact List.cons_prefix_cons.2 ⟨rfl, hpre⟩
      · rw [hloop, hc, step_out, hc1]
        by_cases hd : unpackDecision skip p = .passed <;> simp [List.filter_cons, hd]
      · intro hw
        have hw1 : NoFaults w1 := by
          intro b hb; exact hw b (hf1 ▸ hb)
        obtain ⟨e1, e2, e3, e4⟩ := hnf hw1.step
        rw [hloop]
        refine ⟨by rw [e1], e2, e3, ?_⟩
        have : w1.step.faults.length ≤ w.faults.length := by
          simp [World.step, hf1]
        omega
    · have hloop : unpackLoop env skip (p :: rest) w = .throw w1.step := by
        simp only [unpackLoop, bind_apply, h1, advance, ht]
      refine ⟨[p], ?_, ?_, ?_⟩
      · simp
      · rw [hloop]; simp only [Res.world]
        rw [step_out, hc1]
        by_cases hd : unpackDecision skip p = .passed <;> simp [List.filter_cons, hd]
      · intro hw
        have hw1 : NoFaults w1 := by
          intro b hb; exact hw b (hf1 ▸ hb)
        rw [tick_ok hw1] at ht
        cases ht

theorem directoryIterator_cases (d : Path) (w : World) :
    directoryIterator d w = .throw w.step ∨
    (w.fs.isDirectory d = true ∧
      directoryIterator d w = .ok ((w.fs.children d).map (fun n => d ++ [n])) w.step) := by
  rcases tick_cases w with ht | ht
  · by_cases hd : w.fs.isDirectory d = true
    · right
      refine ⟨hd, ?_⟩
      simp only [directoryIterator, bind_apply, ht, getFS, step_fs, hd, if_true, pure_apply]
    · left
      simp only [directoryIterator, bind_apply, ht, getFS, step_fs, hd]
      rfl
  · left
    simp only [directoryIterator, bind_apply, ht]

theorem directoryIterator_ok {d : Path} {w : World} (hw : NoFaults w)
    (hd : w.fs.isDirectory d = true) :
    directoryIterator d w = .ok ((w.fs.children d).map (fun n => d ++ [n])) w.step := by
  simp only [directoryIterator, bind_apply, tick_ok hw, getFS, step_fs, hd, if_true, pure_apply]

theorem fsRemove_cases (p : Path) (w : World) :
    fsRemove p w = .throw w.step ∨
    ∃ σ1, FS.remove w.fs p = some σ1 ∧ fsRemove p w = .ok () { w.step with fs := σ1 } := by
  rcases tick_cases w with ht | ht
  · cases hr : FS.remove w.fs p with
    | none =>
      left
      simp only [fsRemove, bind_apply, ht, getFS, step_fs, hr, putFS]
    | some σ1 =>
      right
      refine ⟨σ1, rfl, ?_⟩
      simp only [fsRemove, bind_apply, ht, getFS, step_fs, hr, putFS]
  · left
    simp only [fsRemove, bind_apply, ht]

/-! ## The cleanup stage -/

/-- The outcomes of one round of the loop of `deleteFilesInFolder`. -/
theorem deleteEntry_cases (keep : Bool) (p : Path) (w : World) :
    (cleanupDecision keep p = .kept ∧
      deleteEntry keep p w = .ok () { w with out := w.out ++ [.keeping p] }) ∨
    (cleanupDecision keep p = .ignored ∧ deleteEntry keep p w = .ok () w) ∨
    (cleanupDecision keep p = .deleted ∧
      (deleteEntry keep p w = .throw { w.step with out := w.out ++ [.deleting p] } ∨
       ∃ σ1, FS.remove w.fs p = some σ1 ∧
        deleteEntry keep p w =
          .ok () { w.step with out := w.out ++ [.deleting p], fs := σ1 })) := by
  unfold deleteEntry
  cases hd : cleanupDecision keep p with
  | kept => left; exact ⟨rfl, rfl⟩
  | ignored => right; left; exact ⟨rfl, rfl⟩
  | deleted =>
    right; right
    refine ⟨rfl, ?_⟩
    rcases fsRemove_cases p { w with out := w.out ++ [.deleting p] } with h | ⟨σ1, h1, h2⟩
    · left
      simp only [bind_apply, emit_apply, h]
      rfl
    · right
      refine ⟨σ1, h1, ?_⟩
      simp only [bind_apply, emit_apply, h2]
      rfl

theorem deleteEntry_commands (keep : Bool) (p : Path) (w : World) :
    commands (deleteEntry keep p w).world.out = commands w.out := by
  rcases deleteEntry_cases keep p w with ⟨_, h⟩ | ⟨_, h⟩ | ⟨_, h | ⟨σ1, _, h⟩⟩ <;>
    rw [h] <;> simp only [Res.world, commands_snoc, List.append_nil, step_out]

theorem deleteLoop_commands (keep : Bool) (entries : List Path) (w : World) :
    commands (deleteLoop keep entries w).world.out = commands w.out := by
  induction entries generalizing w with
  | nil => rfl
  | cons p rest ih =>
    have h1 := deleteEntry_commands keep p w
    cases he : deleteEntry keep p w with
    | throw w1 =>
      rw [he] at h1
      simp only [deleteLoop, bind_apply, he]
      exact h1
    | ok u w1 =>
      rw [he] at h1
      rcases tick_cases w1 with ht | ht
      · simp only [deleteLoop, bind_apply, he, advance, ht]
        rw [ih, step_out]; exact h1
      · simp only [deleteLoop, bind_apply, he, advance, ht]
        exact h1

theorem deleteFilesInFolderBody_commands (keep : Bool) (w : World) :
    commands (deleteFilesInFolderBody keep w).world.out = commands w.out := by
  rcases directoryIterator_cases [] w with h | ⟨_, h⟩
  · simp only [deleteFilesInFolderBody, bind_apply, h]; rfl
  · simp only [deleteFilesInFolderBody, bind_apply, h]
    rw [deleteLoop_commands]; rfl

/-- The function `deleteFilesInFolder` always returns: whatever its `try` block
raises is caught. -/
theorem deleteFilesInFolder_returned (keep : Bool) (w : World) :
    (deleteFilesInFolder keep w).returned = true := by
  unfold deleteFilesInFolder tryCatch
  cases deleteFilesInFolderBody keep w <;> rfl

theorem deleteFilesInFolder_commands (keep : Bool) (w : World) :
    commands (deleteFilesInFolder keep w).world.out = commands w.out := by
  have h := deleteFilesInFolderBody_commands keep w
  unfold deleteFilesInFolder tryCatch
  cases hb : deleteFilesInFolderBody keep w with
  | ok u w1 => rw [hb] at h; exact h
  | throw w1 =>
    rw [hb] at h
    simp only [emit_apply, Res.world, commands_snoc, List.append_nil]
    exact h

/-- The unpack stage passes the entries it reaches before an error, in the order
of the listing; when no fault is scheduled it reaches the whole listing. -/
theorem unpackStage_spec (env : Env) (skip : Bool) (w : World) :
    ∃ done, done <+: (w.fs.children []).map (fun n => [n]) ∧
      commands (unpackStage env skip w).world.out = commands w.out ++
        (done.filter (fun p => unpackDecision skip p = .passed)).map (undfsCommand env.cwd) ∧
      (NoFaults w → done = (w.fs.children []).map (fun n => [n]) ∧
        (unpackStage env skip w).returned = true) := by
  rcases directoryIterator_cases [] w with h | ⟨_, h⟩
  · refine ⟨[], List.nil_prefix, ?_, ?_⟩
    · simp only [unpackStage, bind_apply, h]; simp [Res.world]
    · intro hw
      rw [directoryIterator_ok hw (by simp [FS.isDirectory, FS.lookup_nil])] at h
      cases h
  · obtain ⟨done, hpre, hc, hnf⟩ :=
      unpackLoop_spec env skip ((w.fs.children []).map (fun n => [] ++ [n])) w.step
    refine ⟨done, by simpa using hpre, ?_, ?_⟩
    · simp only [unpackStage, bind_apply, h]
      rw [hc, step_out]
    · intro hw
      obtain ⟨e1, e2, _, _⟩ := hnf hw.step
      simp only [unpackStage, bind_apply, h]
      exact ⟨by simpa using e1, e2⟩

/-- The calls of `std::system` made by `unpackFiles` are those of its unpack stage. -/
theorem unpackFiles_commands (env : Env) (skip : Bool) (w : World) :
    commands (unpackFiles env skip w).world.out =
      commands (unpackStage env skip w).world.out := by
  unfold unpackFiles tryCatch unpackFilesBody
  simp only [bind_apply]
  cases hs : unpackStage env skip w with
  | throw w1 => simp only [emit_apply, Res.world, commands_snoc, List.append_nil]
  | ok u w1 =>
    simp only [Res.world]
    have h := deleteFilesInFolder_commands skip w1
    have hr := deleteFilesInFolder_returned skip w1
    cases hd : deleteFilesInFolder skip w1 with
    | ok u2 w2 => rw [hd] at h; exact h
    | throw w2 => rw [hd] at hr; cases hr

theorem filename_singleton (n : String) : filename [n] = n := rfl

/-- The branch `passed` in the words of the specification. -/
theorem unpackDecision_passed_iff (skip : Bool) (p : Path) :
    unpackDecision skip p = .passed ↔
      (toLower (extension p) = ".dfs" ∧
        ¬ (skip = true ∧ (toLower (filename p) = "audio1.dfs" ∨
            toLower (filename p) = "audio2.dfs"))) := by
  unfold unpackDecision
  by_cases h1 : skip = true ∧ (toLower (filename p) = "audio1.dfs" ∨
      toLower (filename p) = "audio2.dfs")
  · have : (skip && (toLower (filename p) == "audio1.dfs" ||
        toLower (filename p) == "audio2.dfs")) = true := by
      simpa using h1
    simp [this, h1]
  · have : ¬ (skip && (toLower (filename p) == "audio1.dfs" ||
        toLower (filename p) == "audio2.dfs")) = true := by
      simpa using h1
    simp only [this, if_false]
    by_cases h2 : toLower (extension p) = ".dfs"
    · simp [h2, h1]
    · simp [h2]

theorem passedToUnpacker_iff (skip : Bool) (n : String) :
    passedToUnpacker skip n = true ↔ unpackDecision skip [n] = .passed := by
  rw [unpackDecision_passed_iff, filename_singleton]
  unfold passedToUnpacker
  cases skip <;> simp

theorem tolower_eq_toLower (c : Char) : tolower c = c.toLower := rfl

/-- The `toLower` of the program is ASCII lower-casing. -/
theorem toLower_eq_asciiLower (s : String) : toLower s = asciiLower s := by
  have h : s.data.map tolower = s.data.map Char.toLower :=
    List.map_congr_left (fun c _ => tolower_eq_toLower c)
  unfold toLower asciiLower
  rw [h]

theorem dfsToUnpack_eq (skip : Bool) (n : String) :
    dfsToUnpack skip n = passedToUnpacker skip n := by
  unfold dfsToUnpack passedToUnpacker
  simp only [toLower_eq_asciiLower]

/-- When no fault is scheduled, the commands `unpackFiles` issues are those of
the entries of the listing that are passed to the unpacker, in order. -/
theorem unpackFiles_commands_formula (env : Env) (skip : Bool) (w : World) (hw : NoFaults w) :
    commands (unpackFiles env skip w).world.out = commands w.out ++
      ((w.fs.children []).filter (passedToUnpacker skip)).map
        (fun n => undfsCommand env.cwd [n]) := by
  obtain ⟨done, _, hc, hnf⟩ := unpackStage_spec env skip w
  obtain ⟨hd, _⟩ := hnf hw
  rw [unpackFiles_commands, hc, hd, List.filter_map, List.map_map]
  congr 2
  apply List.filter_congr
  intro n _
  simp only [Function.comp]
  rw [Bool.eq_iff_iff, passedToUnpacker_iff]
  simp

/-- The same with the entries described without the functions of the program. -/
theorem unpackFiles_commands_spec (env : Env) (skip : Bool) (w : World) (hw : NoFaults w) :
    commands (unpackFiles env skip w).world.out = commands w.out ++
      ((w.fs.children []).filter (dfsToUnpack skip)).map
        (fun n => undfsCommand env.cwd [n]) := by
  have h : dfsToUnpack skip = passedToUnpacker skip := funext (dfsToUnpack_eq skip)
  rw [unpackFiles_commands_formula env skip w hw, h]

/-- C1.  Unpack, unpacker invocations.  For every tree, every value of
`skipAudioFiles` and every behaviour of the external unpacker (so every
assignment of exit codes), when the enumeration of the working directory is not
made to fail, `unpackFiles` calls `std::system` exactly for the entries of the
listing whose extension, lower-cased, is `.dfs`, once each and in the order of
the listing, except that with `skipAudioFiles` the entries whose name,
lower-cased, is `audio1.dfs` or `audio2.dfs` are left out; without it they are
passed too.  Lower-casing is here the ASCII lower-casing of the library, not the
`toLower` of the program.  The names of the listing are pairwise distinct.  The
sequence of calls is the same for every external world with the same working
directory: an exit code, zero or not, does not change which later files are
passed. -/
theorem unpackFiles_invocations (env : Env) (skipAudioFiles : Bool) (w : World)
    (hw : NoFaults w) :
    (w.fs.children []).Nodup ∧
    commands (unpackFiles env skipAudioFiles w).world.out = commands w.out ++
      ((w.fs.children []).filter (dfsToUnpack skipAudioFiles)).map
        (fun n => undfsCommand env.cwd [n]) ∧
    (∀ env2 : Env, env2.cwd = env.cwd →
      commands (unpackFiles env2 skipAudioFiles w).world.out =
        commands (unpackFiles env skipAudioFiles w).world.out) := by
  refine ⟨FS.nodup_children _ _, unpackFiles_commands_spec env skipAudioFiles w hw, ?_⟩
  intro env2 h2
  rw [unpackFiles_commands_spec env2 skipAudioFiles w hw,
    unpackFiles_commands_spec env skipAudioFiles w hw, h2]

theorem pathString_singleton (cwd n : String) : pathString cwd [n] = cwd ++ "/" ++ n := rfl

theorem string_append_right_cancel {a b c : String} (h : a ++ c = b ++ c) : a = b := by
  have := congrArg String.data h
  simp only [String.data_append, List.append_cancel_right_eq] at this
  exact String.ext this

theorem string_append_left_cancel {a b c : String} (h : a ++ b = a ++ c) : b = c := by
  have := congrArg String.data h
  simp only [String.data_append, List.append_cancel_left_eq] at this
  exact String.ext this

/-- Distinct names give distinct command lines. -/
theorem undfsCommand_injective (cwd : String) {n m : String}
    (h : undfsCommand cwd [n] = undfsCommand cwd [m]) : n = m := by
  unfold undfsCommand at h
  rw [pathString_singleton, pathString_singleton] at h
  have h1 := string_append_right_cancel h
  have h2 := string_append_left_cancel h1
  exact string_append_left_cancel h2

theorem commandsSince_eq {α : Type} {w : World} {r : Res α} {l : List String}
    (h : commands r.world.out = commands w.out ++ l) : commandsSince w r = l := by
  unfold commandsSince
  rw [h, List.drop_left]

/-- C10, as amended.  Unpack decides by the name alone: for an entry of the
working directory, whatever its node is (a regular file or a directory), when no
fault is scheduled `unpackFiles` passes it to the external unpacker if and only
if its lower-cased extension is `.dfs` and it is not an audio archive to be
skipped.  The kind of the entry is never consulted. -/
theorem unpackFiles_passes_by_name_only (env : Env) (skipAudioFiles : Bool) (w : World)
    (n : String) (node : Node) (hw : NoFaults w) (hl : FS.lookup w.fs [n] = some node) :
    undfsCommand env.cwd [n] ∈ commandsSince w (unpackFiles env skipAudioFiles w) ↔
      passedToUnpacker skipAudioFiles n = true := by
  rw [commandsSince_eq (unpackFiles_commands_formula env skipAudioFiles w hw)]
  rw [List.mem_map]
  have hmem : n ∈ w.fs.children [] := by
    rw [FS.mem_children]; simp [hl]
  constructor
  · rintro ⟨m, hm, hc⟩
    have := undfsCommand_injective env.cwd hc
    subst this
    exact (List.mem_filter.1 hm).2
  · intro hp
    exact ⟨n, List.mem_filter.2 ⟨hmem, hp⟩, rfl⟩

/-- C10 as amended, an instance: the directory `x.dfs` of `archiveWorld`. -/
theorem unpackFiles_passes_by_name_only_witness :
    NoFaults archiveWorld ∧ FS.lookup archiveWorld.fs ["x.dfs"] = some .dir ∧
    (undfsCommand quietEnv.cwd ["x.dfs"] ∈ commandsSince archiveWorld
        (unpackFiles quietEnv true archiveWorld) ↔
      passedToUnpacker true "x.dfs" = true) :=
  ⟨by decide, by decide,
    unpackFiles_passes_by_name_only quietEnv true archiveWorld "x.dfs" .dir
      (by decide) (by decide)⟩

/-- C10, counterexample.  In `archiveWorld` the entry `x.dfs` is a directory, and
`unpackFiles` passes it to the unpacker all the same: the run issues the command
for `FOO.DFS` and the command for the directory `x.dfs`. -/
theorem unpackFiles_passes_directory_counterexample :
    FS.lookup archiveWorld.fs ["x.dfs"] = some .dir ∧
    archiveWorld.out = [] ∧
    commands (unpackFiles quietEnv true archiveWorld).world.out =
      ["undfs.exe \"C:/game/FOO.DFS\"", "undfs.exe \"C:/game/x.dfs\""] := by
  decide

/-- The run of the program on `archiveWorld` with the flag set, evaluated: the
commands are those for `FOO.DFS` and `x.dfs`. -/
theorem unpackFiles_archiveWorld_commands :
    commands (unpackFiles quietEnv true archiveWorld).world.out =
      ["undfs.exe \"C:/game/FOO.DFS\"", "undfs.exe \"C:/game/x.dfs\""] := by
  decide

/-- C1, instances on `archiveWorld`.  The listing is read off the tree; the
entries to unpack are `FOO.DFS`, `Audio1.dfs` and `x.dfs`, whatever the case of
their letters, and with the flag set `Audio1.dfs` is left out.  The run of the
program with the flag set, evaluated, issues the commands for `FOO.DFS` and
`x.dfs`; with an unpacker that fails on every file and without the flag the
theorem gives the commands for all three; nothing is issued for `foo.000` and
`readme.txt`. -/
theorem unpackFiles_invocations_witness :
    NoFaults archiveWorld ∧
    archiveWorld.fs.children [] = ["FOO.DFS", "Audio1.dfs", "foo.000", "readme.txt", "x.dfs"] ∧
    (archiveWorld.fs.children []).filter (dfsToUnpack false) =
      ["FOO.DFS", "Audio1.dfs", "x.dfs"] ∧
    (archiveWorld.fs.children []).filter (dfsToUnpack true) = ["FOO.DFS", "x.dfs"] ∧
    commands (unpackFiles quietEnv true archiveWorld).world.out =
      ["undfs.exe \"C:/game/FOO.DFS\"", "undfs.exe \"C:/game/x.dfs\""] ∧
    commands (unpackFiles failingEnv false archiveWorld).world.out =
      ["undfs.exe \"C:/game/FOO.DFS\"", "undfs.exe \"C:/game/Audio1.dfs\"",
       "undfs.exe \"C:/game/x.dfs\""] :=
  ⟨by decide, by decide, by decide, by decide, unpackFiles_archiveWorld_commands,
    (unpackFiles_invocations failingEnv false archiveWorld (by decide)).2.1.trans (by decide)⟩

/-- C9, as amended.  Filesystem errors never leave `unpackFiles` nor
`deleteFilesInFolder`: both always return.  An error raised in the unpack stage
is caught by the one `catch` of `unpackFiles`, which logs it and returns at
once: the cleanup stage is not executed, and the tree is left as the error
found it.  When the unpack stage ends normally, `unpackFiles` is the cleanup
stage run from there, and an error raised inside the cleanup stage is caught
inside `deleteFilesInFolder`. -/
theorem unpackFiles_error_handling (env : Env) (skipAudioFiles : Bool) (w : World) :
    (unpackFiles env skipAudioFiles w).returned = true ∧
    (deleteFilesInFolder skipAudioFiles w).returned = true ∧
    (∀ w1, unpackStage env skipAudioFiles w = .throw w1 →
      unpackFiles env skipAudioFiles w = .ok () { w1 with out := w1.out ++ [.fsError] }) ∧
    (∀ w1, unpackStage env skipAudioFiles w = .ok () w1 →
      unpackFiles env skipAudioFiles w = deleteFilesInFolder skipAudioFiles w1) := by
  refine ⟨?_, deleteFilesInFolder_returned _ _, ?_, ?_⟩
  · unfold unpackFiles tryCatch
    cases unpackFilesBody env skipAudioFiles w <;> rfl
  · intro w1 h
    simp only [unpackFiles, tryCatch, unpackFilesBody, bind_apply, h, emit_apply]
  · intro w1 h
    have hr := deleteFilesInFolder_returned skipAudioFiles w1
    simp only [unpackFiles, tryCatch, unpackFilesBody, bind_apply, h]
    cases hd : deleteFilesInFolder skipAudioFiles w1 with
    | ok u w2 => rfl
    | throw w2 => rw [hd] at hr; cases hr

/-- C9 as amended, an instance: the error of the unpack stage in `faultyWorld`. -/
theorem unpackFiles_error_handling_witness :
    unpackStage failingEnv false faultyWorld =
      .throw (unpackStage failingEnv false faultyWorld).world ∧
    (unpackFiles failingEnv false faultyWorld).world.fs =
      [(["foo.dfs"], .file "data"), (["error.log"], .file "undfs.exe \"C:/game/foo.dfs\"")] ∧
    unpackFiles failingEnv false faultyWorld =
      .ok () { (unpackStage failingEnv false faultyWorld).world with
        out := (unpackStage failingEnv false faultyWorld).world.out ++ [.fsError] } :=
  ⟨by decide, by decide,
    (unpackFiles_error_handling failingEnv false faultyWorld).2.2.1
      (unpackStage failingEnv false faultyWorld).world (by decide)⟩

/-- C9, counterexample.  In `faultyWorld` the unpack stage raises a filesystem
error after its first round.  The claim has the cleanup stage run afterwards, as
`unpackFilesIsolated` does, which deletes `foo.dfs`.  The source does not: after
`unpackFiles` the file `foo.dfs` is still there and no deletion was logged. -/
theorem unpackFiles_stage_isolation_counterexample :
    (unpackStage quietEnv false faultyWorld).returned = false ∧
    unpackFiles quietEnv false faultyWorld ≠ unpackFilesIsolated quietEnv false faultyWorld ∧
    FS.pathExists (unpackFiles quietEnv false faultyWorld).world.fs ["foo.dfs"] = true ∧
    Event.deleting ["foo.dfs"] ∉ (unpackFiles quietEnv false faultyWorld).world.out ∧
    FS.pathExists (unpackFilesIsolated quietEnv false faultyWorld).world.fs ["foo.dfs"] = false := by
  decide

/-! ## The effect of the cleanup stage on the tree -/

theorem cleanupDecision_nil (keep : Bool) : cleanupDecision keep [] = .ignored := by
  cases keep <;> decide

theorem ne_nil_of_deleted {keep : Bool} {p : Path} (h : cleanupDecision keep p = .deleted) :
    p ≠ [] := by
  intro hp
  subst hp
  rw [cleanupDecision_nil] at h
  cases h

/-- What one round of the loop of `deleteFilesInFolder` does to the tree, when it
ends normally. -/
theorem deleteEntry_effect {keep : Bool} {p : Path} {w w1 : World}
    (h : deleteEntry keep p w = .ok () w1) :
    (∀ q, FS.lookup w1.fs q = none ∨ FS.lookup w1.fs q = FS.lookup w.fs q) ∧
    (cleanupDecision keep p = .deleted → FS.lookup w1.fs p = none) ∧
    (∀ q, (cleanupDecision keep p = .deleted → ¬ p <+: q) →
      FS.lookup w1.fs q = FS.lookup w.fs q) := by
  rcases deleteEntry_cases keep p w with ⟨hd, he⟩ | ⟨hd, he⟩ | ⟨hd, he | ⟨σ1, hr, he⟩⟩
  · rw [he] at h; cases h
    exact ⟨fun q => Or.inr rfl, fun h2 => (by rw [hd] at h2; cases h2), fun q _ => rfl⟩
  · rw [he] at h; cases h
    exact ⟨fun q => Or.inr rfl, fun h2 => (by rw [hd] at h2; cases h2), fun q _ => rfl⟩
  · rw [he] at h; cases h
  · rw [he] at h; cases h
    have hp := ne_nil_of_deleted hd
    exact ⟨fun q => FS.lookup_remove_mono q hp hr, fun _ => FS.lookup_remove_self hp hr,
      fun q hq => FS.lookup_remove_other q hp hr (hq hd)⟩

/-- What the loop of `deleteFilesInFolder` does to the tree, when it ends normally. -/
theorem deleteLoop_effect (keep : Bool) (entries : List Path) (w w2 : World)
    (h : deleteLoop keep entries w = .ok () w2) :
    (∀ q, FS.lookup w2.fs q = none ∨ FS.lookup w2.fs q = FS.lookup w.fs q) ∧
    (∀ p ∈ entries, cleanupDecision keep p = .deleted → FS.lookup w2.fs p = none) ∧
    (∀ q, (∀ p ∈ entries, cleanupDecision keep p = .deleted → ¬ p <+: q) →
      FS.lookup w2.fs q = FS.lookup w.fs q) := by
  induction entries generalizing w with
  | nil =>
    simp only [deleteLoop, pure_apply] at h
    cases h
    exact ⟨fun q => Or.inr rfl, by simp, fun q _ => rfl⟩
  | cons p rest ih =>
    cases he : deleteEntry keep p w with
    | throw w1 =>
      simp only [deleteLoop, bind_apply, he] at h
      cases h
    | ok u w1 =>
      obtain ⟨m1, d1, f1⟩ := deleteEntry_effect he
      rcases tick_cases w1 with ht | ht
      · simp only [deleteLoop, bind_apply, he, advance, ht] at h
        obtain ⟨m2, d2, f2⟩ := ih w1.step h
        simp only [step_fs] at m2 f2
        refine ⟨?_, ?_, ?_⟩
        · intro q
          rcases m2 q with h2 | h2
          · exact Or.inl h2
          · rw [h2]; exact m1 q
        · intro x hx hdx
          rcases List.mem_cons.1 hx with rfl | hx
          · rcases m2 x with h2 | h2
            · exact h2
            · rw [h2]; exact d1 hdx
          · exact d2 x hx hdx
        · intro q hq
          rw [f2 q (fun x hx hdx => hq x (List.mem_cons_of_mem _ hx) hdx)]
          exact f1 q (fun hdp => hq p (List.mem_cons_self _ _) hdp)
      · simp only [deleteLoop, bind_apply, he, advance, ht] at h
        cases h

theorem cleanupDecision_deleted_iff (keep : Bool) (n : String) :
    cleanupDecision keep [n] = .deleted ↔
      ((toLower (extension [n]) = ".dfs" ∨ toLower (extension [n]) = ".000") ∧
        ¬ (keep = true ∧ isAudioName n = true)) := by
  have hcd : cleanupDecision keep [n] =
      if (keep && isAudioName n) = true then .kept
      else if (toLower (extension [n]) == ".dfs" || toLower (extension [n]) == ".000") = true
        then .deleted
      else .ignored := rfl
  rw [hcd]
  by_cases h1 : (keep && isAudioName n) = true
  · rw [if_pos h1]
    simp only [Bool.and_eq_true] at h1
    simp [h1.1, h1.2]
  · rw [if_neg h1]
    simp only [Bool.and_eq_true] at h1
    by_cases h2 : (toLower (extension [n]) == ".dfs" || toLower (extension [n]) == ".000") = true
    · rw [if_pos h2]
      simp only [Bool.or_eq_true, beq_iff_eq] at h2
      simp only [true_iff]
      exact ⟨h2, h1⟩
    · rw [if_neg h2]
      simp only [Bool.or_eq_true, beq_iff_eq] at h2
      simp [h2]

/-- C2.  Unpack, cleanup.  For every tree and every value of the flag, when no
filesystem call of `deleteFilesInFolder` fails (its `try` block ends normally),
every entry of the working directory whose lower-cased extension is `.dfs` or
`.000` is gone afterwards, except that with the flag set the entries whose
lower-cased name is one of the four audio names are kept as they were; every
entry with another extension is kept as it was.  Without the flag the audio
names are deleted like any other `.dfs` or `.000` entry. -/
theorem deleteFilesInFolder_effect (keepAudioFiles : Bool) (w : World)
    (hok : (deleteFilesInFolderBody keepAudioFiles w).returned = true) :
    ∀ n ∈ w.fs.children [],
      ((toLower (extension [n]) = ".dfs" ∨ toLower (extension [n]) = ".000") →
        ¬ (keepAudioFiles = true ∧ isAudioName n = true) →
        FS.pathExists (deleteFilesInFolder keepAudioFiles w).world.fs [n] = false) ∧
      (keepAudioFiles = true → isAudioName n = true →
        FS.lookup (deleteFilesInFolder keepAudioFiles w).world.fs [n] = FS.lookup w.fs [n]) ∧
      (toLower (extension [n]) ≠ ".dfs" → toLower (extension [n]) ≠ ".000" →
        FS.lookup (deleteFilesInFolder keepAudioFiles w).world.fs [n] = FS.lookup w.fs [n]) := by
  intro n hn
  cases hb : deleteFilesInFolderBody keepAudioFiles w with
  | throw w1 => rw [hb] at hok; cases hok
  | ok u w2 =>
    have hfin : (deleteFilesInFolder keepAudioFiles w).world = w2 := by
      simp only [deleteFilesInFolder, tryCatch, hb, Res.world]
    rw [hfin]
    rcases directoryIterator_cases [] w with hi | ⟨_, hi⟩
    · simp only [deleteFilesInFolderBody, bind_apply, hi] at hb
      cases hb
    · simp only [deleteFilesInFolderBody, bind_apply, hi] at hb
      obtain ⟨_, hdel, hframe⟩ := deleteLoop_effect _ _ _ _ hb
      simp only [step_fs, List.nil_append] at hdel hframe
      have hkeepframe : cleanupDecision keepAudioFiles [n] ≠ .deleted →
          FS.lookup w2.fs [n] = FS.lookup w.fs [n] := by
        intro hnd
        apply hframe
        intro p hp hdp hpre
        obtain ⟨m, _, rfl⟩ := List.mem_map.1 hp
        have : m = n := by simpa using hpre
        subst this
        exact hnd hdp
      refine ⟨?_, ?_, ?_⟩
      · intro hext haud
        have hd := (cleanupDecision_deleted_iff keepAudioFiles n).2 ⟨hext, haud⟩
        have := hdel [n] (List.mem_map.2 ⟨n, hn, rfl⟩) hd
        simp [FS.pathExists, this]
      · intro hk ha
        apply hkeepframe
        rw [Ne, cleanupDecision_deleted_iff]
        exact fun h => h.2 ⟨hk, ha⟩
      · intro h1 h2
        apply hkeepframe
        rw [Ne, cleanupDecision_deleted_iff]
        exact fun h => h.1.elim h1 h2

/-- C2, an instance: `Audio1.dfs` is kept in `archiveWorld` when the flag is set. -/
theorem deleteFilesInFolder_effect_witness :
    (deleteFilesInFolderBody true archiveWorld).returned = true ∧
    "Audio1.dfs" ∈ archiveWorld.fs.children [] ∧
    FS.lookup (deleteFilesInFolder true archiveWorld).world.fs ["Audio1.dfs"] =
      FS.lookup archiveWorld.fs ["Audio1.dfs"] :=
  ⟨by decide, by decide,
    ((deleteFilesInFolder_effect true archiveWorld (by decide)) "Audio1.dfs" (by decide)).2.1
      rfl (by decide)⟩

namespace FS

theorem lookup_append_single (σ : FS) (x : Path) (nd : Node) (q : Path) (hq : q ≠ x) :
    lookup (σ ++ [(x, nd)]) q = lookup σ q := by
  by_cases hn : q = []
  · subst hn; rw [lookup_nil, lookup_nil]
  · rw [lookup_of_ne_nil _ hn, lookup_of_ne_nil _ hn, List.find?_append]
    have : List.find? (fun e : Path × Node => e.1 == q) [(x, nd)] = none := by
      simp [List.find?_cons, Ne.symm hq]
    rw [this]
    cases List.find? (fun e : Path × Node => e.1 == q) σ <;> rfl

/-- A successful `create_directories` changes nothing except at the prefixes of
its argument. -/
theorem lookup_createDirectoriesFrom {σ σ1 : FS} {pre : Path} {todo : List String}
    (h : createDirectoriesFrom σ pre todo = some σ1) (q : Path)
    (hq : ¬ q <+: pre ++ todo) : lookup σ1 q = lookup σ q := by
  induction todo generalizing σ pre with
  | nil =>
    simp only [createDirectoriesFrom, Option.some.injEq] at h
    rw [h]
  | cons c cs ih =>
    have hq2 : ¬ q <+: (pre ++ [c]) ++ cs := by simpa using hq
    have hne : q ≠ pre ++ [c] := by
      intro he
      apply hq
      rw [he]
      simp
    unfold createDirectoriesFrom at h
    split at h
    · exact ih h hq2
    · cases h
    · rw [ih h hq2]
      exact lookup_append_single _ _ _ _ hne

theorem lookup_createDirectories {σ σ1 : FS} {p : Path}
    (h : createDirectories σ p = some σ1) (q : Path) (hq : ¬ q <+: p) :
    lookup σ1 q = lookup σ q :=
  lookup_createDirectoriesFrom h q (by simpa using hq)

theorem rename_eq_some {σ σ1 : FS} {a b : Path} (h : rename σ a b = some σ1) (hab : a ≠ b) :
    σ1 = renamed σ a b ∧ a ≠ [] ∧ b ≠ [] ∧ ¬ a <+: b := by
  unfold rename at h
  split at h
  · cases h
  · rw [if_neg hab] at h
    split at h
    · cases h
    · rename_i hc
      simp only [not_or] at hc
      split at h
      · cases h
      · have e : σ1 = renamed σ a b := by
          split at h
          · cases h; rfl
          · split at h
            · cases h; rfl
            · cases h
          · split at h
            · cases h
            · cases h; rfl
        exact ⟨e, hc.1, hc.2.1, hc.2.2⟩

theorem find_cons_ne {e : Path × Node} {q : Path} (h : ¬ e.1 = q) (σ : FS) :
    List.find? (fun e => e.1 == q) (e :: σ) = List.find? (fun e => e.1 == q) σ :=
  List.find?_cons_of_neg _ (by simpa using h)

theorem find_cons_eq {e : Path × Node} {q : Path} (h : e.1 = q) (σ : FS) :
    List.find? (fun e => e.1 == q) (e :: σ) = some e :=
  List.find?_cons_of_pos _ (by simpa using h)

theorem lookup_renamed_other (σ : FS) {a b : Path} (q : Path)
    (ha : ¬ a <+: q) (hb : ¬ b <+: q) : lookup (renamed σ a b) q = lookup σ q := by
  by_cases hq : q = []
  · subst hq; rw [lookup_nil, lookup_nil]
  · rw [lookup_of_ne_nil _ hq, lookup_of_ne_nil _ hq]
    unfold renamed
    induction σ with
    | nil => rfl
    | cons e σ ih =>
      rw [List.filterMap_cons]
      by_cases h1 : b <+: e.1
      · have hne : ¬ e.1 = q := fun h => hb (h ▸ h1)
        simp only [h1, if_true]
        rw [find_cons_ne hne]
        exact ih
      · by_cases h2 : a <+: e.1
        · have hne : ¬ e.1 = q := fun h => ha (h ▸ h2)
          have hne2 : ¬ (b ++ e.1.drop a.length, e.2).1 = q :=
            fun h => hb (h ▸ List.prefix_append _ _)
          simp only [h1, h2, if_true, if_false]
          rw [find_cons_ne hne, find_cons_ne hne2]
          exact ih
        · simp only [h1, h2, if_false]
          by_cases h3 : e.1 = q
          · rw [find_cons_eq h3, find_cons_eq h3]
          · rw [find_cons_ne h3, find_cons_ne h3]
            exact ih

theorem prefix_append_cases {a b r : Path} (h : b <+: a ++ r) : a <+: b ∨ b <+: a :=
  (List.prefix_or_prefix_of_prefix (List.prefix_append a r) h)

theorem lookup_renamed_source (σ : FS) {a b : Path} (r : Path) (ha : a ≠ [])
    (hab : ¬ a <+: b) (hba : ¬ b <+: a) : lookup (renamed σ a b) (a ++ r) = none := by
  have hq : a ++ r ≠ [] := by simp [ha]
  rw [lookup_of_ne_nil _ hq]
  have hbq : ¬ b <+: a ++ r := fun h => (prefix_append_cases h).elim hab hba
  have : List.find? (fun e : Path × Node => e.1 == a ++ r) (renamed σ a b) = none := by
    rw [List.find?_eq_none]
    intro x hx
    unfold renamed at hx
    rw [List.mem_filterMap] at hx
    obtain ⟨e, _, he⟩ := hx
    split at he
    · cases he
    · split at he
      · cases he
        simp only [beq_iff_eq]
        intro h
        exact hbq (h ▸ List.prefix_append _ _)
      · rename_i h2
        cases he
        simp only [beq_iff_eq]
        intro h
        exact h2 (h ▸ List.prefix_append _ _)
  rw [this]; rfl

theorem lookup_renamed_target (σ : FS) {a b : Path} (r : Path) (ha : a ≠ []) (hb : b ≠ [])
    (hab : ¬ a <+: b) (hba : ¬ b <+: a) :
    lookup (renamed σ a b) (b ++ r) = lookup σ (a ++ r) := by
  have hq : a ++ r ≠ [] := by simp [ha]
  have hq2 : b ++ r ≠ [] := by simp [hb]
  rw [lookup_of_ne_nil _ hq, lookup_of_ne_nil _ hq2]
  have hbq : ¬ b <+: a ++ r := fun h => (prefix_append_cases h).elim hab hba
  unfold renamed
  induction σ with
  | nil => rfl
  | cons e σ ih =>
    rw [List.filterMap_cons]
    by_cases h1 : b <+: e.1
    · have hne : ¬ e.1 = a ++ r := fun h => hbq (h ▸ h1)
      simp only [h1, if_true]
      rw [find_cons_ne hne]
      exact ih
    · by_cases h2 : a <+: e.1
      · simp only [h1, h2, if_true, if_false]
        obtain ⟨t, ht⟩ := h2
        by_cases h3 : t = r
        · subst h3
          have e1 : (b ++ List.drop a.length e.1, e.2).1 = b ++ t := by
            rw [← ht]; simp
          rw [find_cons_eq e1, find_cons_eq ht.symm]
          rfl
        · have e1 : ¬ (b ++ List.drop a.length e.1, e.2).1 = b ++ r := by
            rw [← ht]; simpa using h3
          have e2 : ¬ e.1 = a ++ r := by
            rw [← ht]; simpa using h3
          rw [find_cons_ne e1, find_cons_ne e2]
          exact ih
      · have e1 : ¬ e.1 = b ++ r := fun h => h1 (h ▸ List.prefix_append _ _)
        have e2 : ¬ e.1 = a ++ r := fun h => h2 (h ▸ List.prefix_append _ _)
        simp only [h1, h2, if_false]
        rw [find_cons_ne e1, find_cons_ne e2]
        exact ih

end FS

/-! ## The outcomes of the filesystem calls -/

theorem fsIsDirectory_cases (p : Path) (w : World) :
    fsIsDirectory p w = .throw w.step ∨ fsIsDirectory p w = .ok (w.fs.isDirectory p) w.step := by
  rcases tick_cases w with ht | ht
  · right; simp only [fsIsDirectory, bind_apply, ht, getFS, step_fs, pure_apply]
  · left; simp only [fsIsDirectory, bind_apply, ht]

theorem fsExists_cases (p : Path) (w : World) :
    fsExists p w = .throw w.step ∨ fsExists p w = .ok (w.fs.pathExists p) w.step := by
  rcases tick_cases w with ht | ht
  · right; simp only [fsExists, bind_apply, ht, getFS, step_fs, pure_apply]
  · left; simp only [fsExists, bind_apply, ht]

theorem fsRemoveAll_cases (p : Path) (w : World) :
    fsRemoveAll p w = .throw w.step ∨
    fsRemoveAll p w = .ok () { w.step with fs := w.fs.removeAll p } := by
  rcases tick_cases w with ht | ht
  · right; simp only [fsRemoveAll, bind_apply, ht, getFS, step_fs, putFS]
  · left; simp only [fsRemoveAll, bind_apply, ht]

theorem fsCreateDirectories_cases (p : Path) (w : World) :
    fsCreateDirectories p w = .throw w.step ∨
    ∃ σ1, FS.createDirectories w.fs p = some σ1 ∧
      fsCreateDirectories p w = .ok () { w.step with fs := σ1 } := by
  rcases tick_cases w with ht | ht
  · cases hr : FS.createDirectories w.fs p with
    | none => left; simp only [fsCreateDirectories, bind_apply, ht, getFS, step_fs, hr, putFS]
    | some σ1 =>
      right
      exact ⟨σ1, rfl, by simp only [fsCreateDirectories, bind_apply, ht, getFS, step_fs, hr, putFS]⟩
  · left; simp only [fsCreateDirectories, bind_apply, ht]

theorem fsRename_cases (a b : Path) (w : World) :
    fsRename a b w = .throw w.step ∨
    ∃ σ1, FS.rename w.fs a b = some σ1 ∧ fsRename a b w = .ok () { w.step with fs := σ1 } := by
  rcases tick_cases w with ht | ht
  · cases hr : FS.rename w.fs a b with
    | none => left; simp only [fsRename, bind_apply, ht, getFS, step_fs, hr, putFS]
    | some σ1 =>
      right
      exact ⟨σ1, rfl, by simp only [fsRename, bind_apply, ht, getFS, step_fs, hr, putFS]⟩
  · left; simp only [fsRename, bind_apply, ht]

/-! ## Frame rules -/

theorem keeps_pure {α : Type} (S : Path → Prop) (a : α) : Keeps S (pure a : M α) :=
  fun _ _ _ => rfl

theorem keeps_bind {α β : Type} {S : Path → Prop} {m : M α} {f : α → M β}
    (hm : Keeps S m) (hf : ∀ a, Keeps S (f a)) : Keeps S (m >>= f) := by
  intro w q hq
  have h1 := hm w q hq
  rw [bind_apply]
  cases hmw : m w with
  | throw w1 => rw [hmw] at h1; exact h1
  | ok a w1 =>
    rw [hmw] at h1
    simp only [Res.world] at h1
    simp only []
    rw [hf a w1 q hq, h1]

theorem keeps_tryCatch {S : Path → Prop} {m h : M Unit}
    (hm : Keeps S m) (hh : Keeps S h) : Keeps S (tryCatch m h) := by
  intro w q hq
  have h1 := hm w q hq
  unfold tryCatch
  cases hmw : m w with
  | ok a w1 => rw [hmw] at h1; exact h1
  | throw w1 =>
    rw [hmw] at h1
    simp only [Res.world] at h1
    simp only []
    rw [hh w1 q hq, h1]

theorem keeps_ite {α : Type} {S : Path → Prop} {c : Prop} [Decidable c] {a b : M α}
    (ha : Keeps S a) (hb : Keeps S b) : Keeps S (if c then a else b) := by
  split
  · exact ha
  · exact hb

theorem keeps_emit (S : Path → Prop) (e : Event) : Keeps S (emit e) :=
  fun _ _ _ => rfl

theorem keeps_tick (S : Path → Prop) : Keeps S tick := by
  intro w q _
  rcases tick_cases w with h | h <;> rw [h] <;> rfl

theorem keeps_fsIsDirectory (S : Path → Prop) (p : Path) : Keeps S (fsIsDirectory p) := by
  intro w q _
  rcases fsIsDirectory_cases p w with h | h <;> rw [h] <;> rfl

theorem keeps_fsExists (S : Path → Prop) (p : Path) : Keeps S (fsExists p) := by
  intro w q _
  rcases fsExists_cases p w with h | h <;> rw [h] <;> rfl

theorem keeps_fsRemoveAll {S : Path → Prop} {p : Path} (hp : p ≠ [])
    (h : ∀ q, S q → ¬ p <+: q) : Keeps S (fsRemoveAll p) := by
  intro w q hq
  rcases fsRemoveAll_cases p w with h1 | h1 <;> rw [h1]
  · rfl
  · simp only [Res.world]
    rw [FS.lookup_removeAll _ _ hp, if_neg (h q hq)]

theorem keeps_fsCreateDirectories {S : Path → Prop} {p : Path}
    (h : ∀ q, S q → ¬ q <+: p) : Keeps S (fsCreateDirectories p) := by
  intro w q hq
  rcases fsCreateDirectories_cases p w with h1 | ⟨σ1, hc, h1⟩ <;> rw [h1]
  · rfl
  · simp only [Res.world]
    exact FS.lookup_createDirectories hc q (h q hq)

theorem keeps_fsRename {S : Path → Prop} {a b : Path} (hab : a ≠ b)
    (h : ∀ q, S q → ¬ a <+: q ∧ ¬ b <+: q) : Keeps S (fsRename a b) := by
  intro w q hq
  rcases fsRename_cases a b w with h1 | ⟨σ1, hc, h1⟩ <;> rw [h1]
  · rfl
  · simp only [Res.world]
    rw [(FS.rename_eq_some hc hab).1]
    exact FS.lookup_renamed_other _ q (h q hq).1 (h q hq).2

theorem keeps_system {S : Path → Prop} {env : Env} {command : String}
    (h : ∀ σ q, S q → FS.lookup (env.system command σ).1 q = FS.lookup σ q) :
    Keeps S (system env command) :=
  fun w q hq => h w.fs q hq

theorem keeps_directoryIterator (S : Path → Prop) (d : Path) :
    Keeps S (directoryIterator d) := by
  intro w q _
  rcases directoryIterator_cases d w with h | ⟨_, h⟩ <;> rw [h] <;> rfl

/-- The alias of a key of the table is a name of the table, and it is neither
`levels` nor `LEVELS`. -/
theorem alias_facts {K A : String} (h : levelMapFind K = some A) :
    A ∈ levelMap.map Prod.snd ∧ A ≠ "levels" ∧ A ≠ "LEVELS" := by
  have hm := levelMapFind_mem h
  have key : ∀ kv ∈ levelMap, kv.2 ∈ levelMap.map Prod.snd ∧ kv.2 ≠ "levels" ∧ kv.2 ≠ "LEVELS" := by
    decide
  exact key _ hm

/-- One round of the loop of `moveLevelFolders` keeps every path that lies
outside the level folder it moves and outside the staging folder of its alias,
provided the packer keeps it. -/
theorem levelEntry_keeps {S : Path → Prop} (env : Env) (n : String)
    (h : ∀ A, levelMapFind n = some A → ∀ q, S q →
      q ≠ [] ∧ ¬ [A] <+: q ∧ ¬ ["levels", n] <+: q ∧
      ∀ σ, FS.lookup (env.system (packCommand env.cwd A) σ).1 q = FS.lookup σ q) :
    Keeps S (levelEntry env ["levels", n]) := by
  unfold levelEntry
  refine keeps_bind (keeps_fsIsDirectory _ _) (fun isDir => ?_)
  cases isDir
  · exact keeps_pure _ _
  · simp only [if_true]
    have hfn : filename ["levels", n] = n := rfl
    rw [hfn]
    cases hA : levelMapFind n with
    | none => exact keeps_emit _ _
    | some A =>
      have hS := h A hA
      simp only []
      refine keeps_bind (keeps_fsCreateDirectories ?_) (fun _ => ?_)
      · intro q hq hpre
        obtain ⟨h0, h1, _, _⟩ := hS q hq
        rcases q with _ | ⟨x, q⟩
        · exact h0 rfl
        · have : x = A := (List.cons_prefix_cons.1 hpre).1
          subst this
          exact h1 (by simp)
      refine keeps_bind (keeps_fsRename (by simp) ?_) (fun _ => ?_)
      · intro q hq
        obtain ⟨_, h1, h2, _⟩ := hS q hq
        refine ⟨h2, fun hpre => h1 ?_⟩
        exact List.IsPrefix.trans (by simp) hpre
      refine keeps_bind (keeps_emit _ _) (fun _ => ?_)
      refine keeps_bind (keeps_emit _ _) (fun _ => ?_)
      refine keeps_bind (keeps_system (fun σ q hq => (hS q hq).2.2.2 σ)) (fun result => ?_)
      have htail : Keeps S (do
          let stagingExists ← fsExists [A]
          if stagingExists = true then do
              fsRemoveAll [A]
              emit (Event.deletedFolder A)
            else pure PUnit.unit) := by
        refine keeps_bind (keeps_fsExists _ _) (fun ex => ?_)
        refine keeps_ite ?_ (keeps_pure _ _)
        refine keeps_bind (keeps_fsRemoveAll (by simp) (fun q hq => (hS q hq).2.1)) (fun _ => ?_)
        exact keeps_emit _ _
      refine keeps_ite ?_ ?_
      · exact keeps_bind (keeps_emit _ _) (fun _ => htail)
      · exact keeps_bind (keeps_pure _ _) (fun _ => htail)

/-- The loop of `moveLevelFolders` keeps every path that each of its rounds keeps. -/
theorem levelsLoop_keeps {S : Path → Prop} (env : Env) (names : List String)
    (h : ∀ n ∈ names, ∀ A, levelMapFind n = some A → ∀ q, S q →
      q ≠ [] ∧ ¬ [A] <+: q ∧ ¬ ["levels", n] <+: q ∧
      ∀ σ, FS.lookup (env.system (packCommand env.cwd A) σ).1 q = FS.lookup σ q) :
    Keeps S (levelsLoop env (names.map (fun n => ["levels"] ++ [n]))) := by
  induction names with
  | nil => exact keeps_pure _ _
  | cons n rest ih =>
    simp only [List.map_cons, levelsLoop]
    refine keeps_bind (levelEntry_keeps env n (h n (List.mem_cons_self _ _))) (fun _ => ?_)
    refine keeps_bind (keeps_tick _) (fun _ => ?_)
    exact ih (fun m hm => h m (List.mem_cons_of_mem _ hm))

/-! ## One round of the loop of `moveLevelFolders` -/

/-- The end of a round for a mapped level: the test of the staging folder and
its removal (source lines 160-164). -/
theorem staging_teardown_ok {A : String} {w w2 : World}
    (h : (do
        let stagingExists ← fsExists [A]
        if stagingExists = true then do
            fsRemoveAll [A]
            emit (Event.deletedFolder A)
          else pure PUnit.unit : M PUnit) w = .ok () w2) :
    invocations w2.out = invocations w.out ∧ commands w2.out = commands w.out ∧
    ((FS.pathExists w.fs [A] = false ∧ w2.fs = w.fs) ∨ w2.fs = FS.removeAll w.fs [A]) := by
  rcases fsExists_cases [A] w with he | he
  · simp only [bind_apply, he] at h; cases h
  · simp only [bind_apply, he] at h
    cases hex : FS.pathExists w.fs [A] with
    | false =>
      simp only [hex, pure_apply] at h
      cases h
      exact ⟨rfl, rfl, Or.inl ⟨rfl, rfl⟩⟩
    | true =>
      simp only [hex, if_true, bind_apply] at h
      rcases fsRemoveAll_cases [A] w.step with hr | hr
      · simp only [hr] at h; cases h
      · simp only [hr, emit_apply] at h
        cases h
        refine ⟨?_, ?_, Or.inr rfl⟩
        · simp only [invocations_snoc, List.append_nil]; rfl
        · simp only [commands_snoc, List.append_nil]; rfl

theorem fsIsDirectory_ok {p : Path} {w w1 : World} {b : Bool}
    (h : fsIsDirectory p w = .ok b w1) : b = w.fs.isDirectory p ∧ w1 = w.step := by
  rcases fsIsDirectory_cases p w with h1 | h1 <;> rw [h1] at h <;> cases h
  exact ⟨rfl, rfl⟩

theorem fsCreateDirectories_ok {p : Path} {w w1 : World}
    (h : fsCreateDirectories p w = .ok () w1) :
    FS.createDirectories w.fs p = some w1.fs ∧ w1.out = w.out := by
  rcases fsCreateDirectories_cases p w with h1 | ⟨σ1, hc, h1⟩ <;> rw [h1] at h <;> cases h
  exact ⟨hc, rfl⟩

theorem fsRename_ok {a b : Path} {w w1 : World} (h : fsRename a b w = .ok () w1) :
    FS.rename w.fs a b = some w1.fs ∧ w1.out = w.out := by
  rcases fsRename_cases a b w with h1 | ⟨σ1, hc, h1⟩ <;> rw [h1] at h <;> cases h
  exact ⟨hc, rfl⟩

/-- What a round of the loop does for a mapped level folder, when it ends
normally: the staging folder is created, the level is moved into it, the packer
is called once on the tree so obtained, and the staging folder is removed if it
is still there. -/
theorem levelEntry_mapped_ok {env : Env} {K A : String} {w w2 : World}
    (hmap : levelMapFind K = some A) (hdir : w.fs.isDirectory ["levels", K] = true)
    (hrun : levelEntry env ["levels", K] w = .ok () w2) :
    ∃ σ1 σ2, FS.createDirectories w.fs [A, "LEVELS"] = some σ1 ∧
      FS.rename σ1 ["levels", K] [A, "LEVELS", K] = some σ2 ∧
      invocations w2.out = invocations w.out ++ [(packCommand env.cwd A, σ2)] ∧
      commands w2.out = commands w.out ++ [packCommand env.cwd A] ∧
      ((FS.pathExists (env.system (packCommand env.cwd A) σ2).1 [A] = false ∧
          w2.fs = (env.system (packCommand env.cwd A) σ2).1) ∨
        w2.fs = FS.removeAll (env.system (packCommand env.cwd A) σ2).1 [A]) := by
  have hfn : filename ["levels", K] = K := rfl
  unfold levelEntry at hrun
  rw [bind_apply] at hrun
  cases h1 : fsIsDirectory ["levels", K] w with
  | throw wx => rw [h1] at hrun; cases hrun
  | ok b w1 =>
    rw [h1] at hrun
    obtain ⟨hb, hw1⟩ := fsIsDirectory_ok h1
    subst hb hw1
    simp only [hdir, if_true, hfn, hmap] at hrun
    rw [bind_apply] at hrun
    cases h2 : fsCreateDirectories [A, "LEVELS"] w.step with
    | throw wx => rw [h2] at hrun; cases hrun
    | ok u w3 =>
      rw [h2] at hrun
      obtain ⟨hc, ho3⟩ := fsCreateDirectories_ok h2
      simp only [] at hrun
      rw [bind_apply] at hrun
      cases h3 : fsRename ["levels", K] ([A, "LEVELS"] ++ [K]) w3 with
      | throw wx => rw [h3] at hrun; cases hrun
      | ok u w4 =>
        rw [h3] at hrun
        obtain ⟨hr, ho4⟩ := fsRename_ok h3
        simp only [bind_apply, emit_apply, system] at hrun
        refine ⟨w3.fs, w4.fs, hc, hr, ?_⟩
        split at hrun
        · obtain ⟨e1, e2, e3⟩ := staging_teardown_ok hrun
          refine ⟨?_, ?_, e3⟩
          · rw [e1, ho4, ho3]
            simp only [invocations_append, step_out, List.append_assoc]; rfl
          · rw [e2, ho4, ho3]
            simp only [commands_append, step_out, List.append_assoc]; rfl
        · obtain ⟨e1, e2, e3⟩ := staging_teardown_ok hrun
          refine ⟨?_, ?_, e3⟩
          · rw [e1, ho4, ho3]
            simp only [invocations_append, step_out, List.append_assoc]; rfl
          · rw [e2, ho4, ho3]
            simp only [commands_append, step_out, List.append_assoc]; rfl

/-- One round of the loop for a mapped level.  For a key `K` of `levelMap` with
alias `A`, if `levels/K` is a directory when the round starts and the round ends
normally, then the round calls the external packer exactly once, with the
command line made of the batch file and the quoted path `cwd/A`; in the tree
the packer starts from, `levels/K` and everything below it no longer exist,
`A/LEVELS/K` is a directory and holds what `levels/K` held; and when the round
is over `A` does not exist, whatever exit code the packer returned. -/
theorem levelEntry_mapped_level (env : Env) (K A : String) (w w2 : World)
    (hmap : levelMapFind K = some A) (hdir : w.fs.isDirectory ["levels", K] = true)
    (hrun : levelEntry env ["levels", K] w = .ok () w2) :
    ∃ σ2,
      invocations w2.out = invocations w.out ++ [(packCommand env.cwd A, σ2)] ∧
      packCommand env.cwd A = "pack_dfs_Drag'n'Drop.bat \"" ++ (env.cwd ++ "/" ++ A) ++ "\"" ∧
      (∀ r, FS.lookup σ2 (["levels", K] ++ r) = none) ∧
      (∀ r, FS.lookup σ2 ([A, "LEVELS", K] ++ r) = FS.lookup w.fs (["levels", K] ++ r)) ∧
      FS.isDirectory σ2 [A, "LEVELS", K] = true ∧
      FS.pathExists w2.fs [A] = false := by
  obtain ⟨σ1, σ2, hc, hr, hi, _, hfin⟩ := levelEntry_mapped_ok hmap hdir hrun
  obtain ⟨_, hA, _⟩ := alias_facts hmap
  have hab : (["levels", K] : Path) ≠ [A, "LEVELS", K] := by
    intro h; simp at h
  have hnab : ¬ (["levels", K] : Path) <+: [A, "LEVELS", K] := by
    intro h; exact hA (List.cons_prefix_cons.1 h).1.symm
  have hnba : ¬ ([A, "LEVELS", K] : Path) <+: ["levels", K] := by
    intro h; exact hA (List.cons_prefix_cons.1 h).1
  obtain ⟨hσ2, ha, hb, _⟩ := FS.rename_eq_some hr hab
  have htarget : ∀ r, FS.lookup σ2 ([A, "LEVELS", K] ++ r) = FS.lookup w.fs (["levels", K] ++ r) := by
    intro r
    rw [hσ2, FS.lookup_renamed_target _ r ha hb hnab hnba]
    apply FS.lookup_createDirectories hc
    intro h
    exact hA (List.cons_prefix_cons.1 h).1.symm
  refine ⟨σ2, hi, rfl, ?_, htarget, ?_, ?_⟩
  · intro r
    rw [hσ2]
    exact FS.lookup_renamed_source _ r ha hnab hnba
  · have := htarget []
    simp only [List.append_nil] at this
    unfold FS.isDirectory at hdir ⊢
    rw [this]; exact hdir
  · rcases hfin with ⟨h1, h2⟩ | h2
    · rw [h2]; exact h1
    · rw [h2]
      unfold FS.pathExists
      rw [FS.lookup_removeAll _ _ (by simp)]
      simp

/-- An instance of the round: `CH01_HOBBITON` in `levelsWorld`, with a packer that
fails. -/
theorem levelEntry_mapped_level_witness :
    levelMapFind "CH01_HOBBITON" = some "Ch01_Hob" ∧
    levelsWorld.fs.isDirectory ["levels", "CH01_HOBBITON"] = true ∧
    (levelEntry failingEnv ["levels", "CH01_HOBBITON"] levelsWorld).returned = true ∧
    ∃ σ2,
      invocations (levelEntry failingEnv ["levels", "CH01_HOBBITON"] levelsWorld).world.out =
        invocations levelsWorld.out ++ [(packCommand failingEnv.cwd "Ch01_Hob", σ2)] ∧
      packCommand failingEnv.cwd "Ch01_Hob" =
        "pack_dfs_Drag'n'Drop.bat \"" ++ (failingEnv.cwd ++ "/" ++ "Ch01_Hob") ++ "\"" ∧
      (∀ r, FS.lookup σ2 (["levels", "CH01_HOBBITON"] ++ r) = none) ∧
      (∀ r, FS.lookup σ2 (["Ch01_Hob", "LEVELS", "CH01_HOBBITON"] ++ r) =
        FS.lookup levelsWorld.fs (["levels", "CH01_HOBBITON"] ++ r)) ∧
      FS.isDirectory σ2 ["Ch01_Hob", "LEVELS", "CH01_HOBBITON"] = true ∧
      FS.pathExists (levelEntry failingEnv ["levels", "CH01_HOBBITON"] levelsWorld).world.fs
        ["Ch01_Hob"] = false :=
  ⟨by decide, by decide, by decide,
    levelEntry_mapped_level failingEnv "CH01_HOBBITON" "Ch01_Hob" levelsWorld
      (levelEntry failingEnv ["levels", "CH01_HOBBITON"] levelsWorld).world
      (by decide) (by decide) (by decide)⟩

/-! ## `moveLevelFolders` without a `levels` folder -/

theorem isDirectory_false_of_not_exists {σ : FS} {p : Path} (h : σ.pathExists p = false) :
    σ.isDirectory p = false := by
  unfold FS.pathExists at h
  unfold FS.isDirectory
  cases hl : FS.lookup σ p with
  | none => rfl
  | some x => rw [hl] at h; cases h

/-- The test `folderExists` changes neither the tree nor the trace; when it
returns, it returns whether the path is a directory; it returns when no fault
is scheduled. -/
theorem folderExists_spec (p : Path) (w : World) :
    (folderExists p w).world.fs = w.fs ∧ (folderExists p w).world.out = w.out ∧
    (∀ b w1, folderExists p w = .ok b w1 → b = w.fs.isDirectory p) ∧
    (NoFaults w → (folderExists p w).returned = true ∧ NoFaults (folderExists p w).world) := by
  unfold folderExists
  rw [bind_apply]
  rcases fsExists_cases p w with h1 | h1
  · rw [h1]
    refine ⟨rfl, rfl, fun b w1 h => (by cases h), fun hw => ?_⟩
    rcases tick_cases w with ht | ht
    · have : fsExists p w = .ok (w.fs.pathExists p) w.step := by
        simp only [fsExists, bind_apply, ht, getFS, step_fs, pure_apply]
      rw [this] at h1; cases h1
    · rw [tick_ok hw] at ht; cases ht
  · rw [h1]
    cases hex : w.fs.pathExists p with
    | false =>
      simp only [pure_apply]
      refine ⟨rfl, rfl, fun b w1 h => ?_, fun hw => ⟨rfl, hw.step⟩⟩
      cases h
      exact (isDirectory_false_of_not_exists hex).symm
    | true =>
      simp only [if_true]
      rcases fsIsDirectory_cases p w.step with h2 | h2
      · rw [h2]
        refine ⟨rfl, rfl, fun b w1 h => (by cases h), fun hw => ?_⟩
        have h3 : fsIsDirectory p w.step = .ok (w.step.fs.isDirectory p) w.step.step := by
          simp only [fsIsDirectory, bind_apply, tick_ok hw.step, getFS, step_fs, pure_apply]
        rw [h3] at h2; cases h2
      · rw [h2]
        refine ⟨rfl, rfl, fun b w1 h => ?_, fun hw => ⟨rfl, hw.step.step⟩⟩
        cases h
        rfl

/-- C6.  Pack without a `levels` folder.  When `levels` does not exist or is
not a directory, `moveLevelFolders` leaves the tree exactly as it was and calls
no external command; when no fault is scheduled it returns, having logged that
the folder was not found and nothing else. -/
theorem moveLevelFolders_without_levels (env : Env) (w : World)
    (h : w.fs.pathExists ["levels"] = false ∨ w.fs.isDirectory ["levels"] = false) :
    (moveLevelFolders env w).world.fs = w.fs ∧
    invocations (moveLevelFolders env w).world.out = invocations w.out ∧
    (NoFaults w → (moveLevelFolders env w).returned = true ∧
      (moveLevelFolders env w).world.out = w.out ++ [.levelsNotFound]) := by
  have hnd : w.fs.isDirectory ["levels"] = false :=
    h.elim isDirectory_false_of_not_exists id
  obtain ⟨e1, e2, e3, e4⟩ := folderExists_spec ["levels"] w
  unfold moveLevelFolders
  rw [bind_apply]
  cases hf : folderExists ["levels"] w with
  | throw w1 =>
    rw [hf] at e1 e2 e4
    simp only [Res.world] at e1 e2
    refine ⟨e1, by simp only [Res.world]; rw [e2], fun hw => ?_⟩
    have := (e4 hw).1
    cases this
  | ok b w1 =>
    rw [hf] at e1 e2
    simp only [Res.world] at e1 e2
    have hb := e3 b w1 hf
    rw [hnd] at hb
    subst hb
    simp only [Bool.not_false, if_true, emit_apply, Res.world, Res.returned]
    refine ⟨e1, ?_, fun _ => ⟨trivial, by rw [e2]⟩⟩
    rw [invocations_snoc, e2]
    simp

/-- C6, an instance: `levels` is a regular file in `noLevelsWorld`. -/
theorem moveLevelFolders_without_levels_witness :
    (noLevelsWorld.fs.pathExists ["levels"] = false ∨
      noLevelsWorld.fs.isDirectory ["levels"] = false) ∧
    (moveLevelFolders failingEnv noLevelsWorld).world.fs = noLevelsWorld.fs ∧
    invocations (moveLevelFolders failingEnv noLevelsWorld).world.out =
      invocations noLevelsWorld.out :=
  ⟨by decide,
    (moveLevelFolders_without_levels failingEnv noLevelsWorld (by decide)).1,
    (moveLevelFolders_without_levels failingEnv noLevelsWorld (by decide)).2.1⟩

/-! ## The whole of `moveLevelFolders` -/

theorem keeps_bind_ok {α β : Type} {S : Path → Prop} {m : M α} {f : α → M β}
    (hm : Keeps S m) (hf : ∀ w a w1, m w = .ok a w1 → Keeps S (f a)) : Keeps S (m >>= f) := by
  intro w q hq
  have h1 := hm w q hq
  rw [bind_apply]
  cases hmw : m w with
  | throw w1 => rw [hmw] at h1; exact h1
  | ok a w1 =>
    rw [hmw] at h1
    simp only [Res.world] at h1
    simp only []
    rw [hf w a w1 hmw w1 q hq, h1]

theorem keeps_folderExists (S : Path → Prop) (p : Path) : Keeps S (folderExists p) := by
  unfold folderExists
  refine keeps_bind (keeps_fsExists _ _) (fun e => ?_)
  exact keeps_ite (keeps_fsIsDirectory _ _) (keeps_pure _ _)

theorem directoryIterator_ok_eq {d : Path} {w w1 : World} {entries : List Path}
    (h : directoryIterator d w = .ok entries w1) :
    entries = (w.fs.children d).map (fun n => d ++ [n]) ∧ w1 = w.step := by
  rcases directoryIterator_cases d w with h1 | ⟨_, h1⟩ <;> rw [h1] at h <;> cases h
  exact ⟨rfl, rfl⟩

/-- The function `moveLevelFolders` keeps every path that lies outside `LEVELS`
and that each round of its loop keeps. -/
theorem moveLevelFolders_keeps {S : Path → Prop} (env : Env)
    (hS : ∀ q, S q → ¬ ["LEVELS"] <+: q)
    (h : ∀ n A, levelMapFind n = some A → ∀ q, S q →
      q ≠ [] ∧ ¬ [A] <+: q ∧ ¬ ["levels", n] <+: q ∧
      ∀ σ, FS.lookup (env.system (packCommand env.cwd A) σ).1 q = FS.lookup σ q) :
    Keeps S (moveLevelFolders env) := by
  unfold moveLevelFolders
  refine keeps_bind (keeps_folderExists _ _) (fun found => ?_)
  refine keeps_ite (keeps_emit _ _) ?_
  refine keeps_tryCatch ?_ (keeps_emit _ _)
  unfold moveLevelFoldersBody
  refine keeps_bind_ok (keeps_directoryIterator _ _) (fun w entries w1 hit => ?_)
  rw [(directoryIterator_ok_eq hit).1]
  refine keeps_bind (levelsLoop_keeps env _ (fun n _ => h n)) (fun _ => ?_)
  refine keeps_bind (keeps_fsExists _ _) (fun ex => ?_)
  refine keeps_ite ?_ (keeps_pure _ _)
  exact keeps_bind (keeps_fsRemoveAll (by simp) hS) (fun _ => keeps_emit _ _)

theorem levelMapFind_eq_none {N : String} (h : N ∉ levelMap.map Prod.fst) :
    levelMapFind N = none := by
  unfold levelMapFind
  have : levelMap.find? (fun kv => kv.1 == N) = none := by
    rw [List.find?_eq_none]
    intro x hx hxN
    apply h
    rw [List.mem_map]
    exact ⟨x, hx, by simpa using hxN⟩
  rw [this]; rfl

/-- A round of the loop for a name without an alias changes nothing in the tree
and calls nothing. -/
theorem levelEntry_unmapped (env : Env) {N : String} (hN : levelMapFind N = none) (w : World) :
    (levelEntry env ["levels", N] w).world.fs = w.fs ∧
    invocations (levelEntry env ["levels", N] w).world.out = invocations w.out ∧
    commands (levelEntry env ["levels", N] w).world.out = commands w.out := by
  have hfn : filename ["levels", N] = N := rfl
  unfold levelEntry
  rw [bind_apply]
  rcases fsIsDirectory_cases ["levels", N] w with h1 | h1 <;> rw [h1]
  · exact ⟨rfl, rfl, rfl⟩
  · cases hd : w.fs.isDirectory ["levels", N] with
    | false => exact ⟨rfl, rfl, rfl⟩
    | true =>
      simp only [if_true, hfn, hN, emit_apply, Res.world, step_fs, step_out]
      refine ⟨trivial, ?_, ?_⟩
      · rw [invocations_snoc]; simp
      · rw [commands_snoc]; simp

/-- A round of the loop for an entry that is not a directory changes nothing in
the tree and calls nothing. -/
theorem levelEntry_not_directory (env : Env) {n : String} {w : World}
    (hd : w.fs.isDirectory ["levels", n] = false) :
    (levelEntry env ["levels", n] w).world.fs = w.fs ∧
    commands (levelEntry env ["levels", n] w).world.out = commands w.out := by
  unfold levelEntry
  rw [bind_apply]
  rcases fsIsDirectory_cases ["levels", n] w with h1 | h1 <;> rw [h1]
  · exact ⟨rfl, rfl⟩
  · rw [hd]; exact ⟨rfl, rfl⟩

/-- An unmapped level on a case-sensitive filesystem, where `LEVELS` is not
`levels`.  For a subdirectory `N` of `levels` whose name is not a key of
`levelMap` (compared exactly), and an external packer that leaves `levels`
alone, after `moveLevelFolders`, however it ends, `levels/N` is still a
directory and every path below it holds what it held.  The round of the loop
for `N` changes nothing in the tree, so it creates no staging folder, and calls
no external command. -/
theorem moveLevelFolders_unmapped_level (env : Env) (w : World) (N : String)
    (hN : N ∉ levelMap.map Prod.fst) (hdir : w.fs.isDirectory ["levels", N] = true)
    (hframe : LeavesLevels env) :
    FS.isDirectory (moveLevelFolders env w).world.fs ["levels", N] = true ∧
    (∀ q, ["levels", N] <+: q →
      FS.lookup (moveLevelFolders env w).world.fs q = FS.lookup w.fs q) ∧
    (∀ w0, (levelEntry env ["levels", N] w0).world.fs = w0.fs ∧
      invocations (levelEntry env ["levels", N] w0).world.out = invocations w0.out) := by
  have hnone := levelMapFind_eq_none hN
  have hk : Keeps (fun q => ["levels", N] <+: q) (moveLevelFolders env) := by
    apply moveLevelFolders_keeps
    · intro q hq h2
      obtain ⟨t, rfl⟩ := hq
      have := (List.cons_prefix_cons.1 h2).1
      revert this; decide
    · intro n A hA q hq
      obtain ⟨_, hAl, _⟩ := alias_facts hA
      refine ⟨?_, ?_, ?_, ?_⟩
      · intro h0; subst h0; simp at hq
      · intro h2
        obtain ⟨t, rfl⟩ := hq
        exact hAl (List.cons_prefix_cons.1 h2).1
      · intro h2
        have hn : n = N := by
          obtain ⟨t, rfl⟩ := hq
          obtain ⟨t2, ht2⟩ := h2
          simp at ht2
          exact ht2.1
        rw [hn, hnone] at hA
        cases hA
      · intro σ
        apply hframe
        exact List.IsPrefix.trans (by simp) hq
  refine ⟨?_, fun q hq => hk w q hq, fun w0 => ?_⟩
  · unfold FS.isDirectory at hdir ⊢
    rw [hk w _ (List.prefix_refl _)]
    exact hdir
  · exact ⟨(levelEntry_unmapped env hnone w0).1, (levelEntry_unmapped env hnone w0).2.1⟩

/-- Distinct aliases give distinct command lines. -/
theorem packCommand_injective (cwd : String) {A B : String}
    (h : packCommand cwd A = packCommand cwd B) : A = B := by
  unfold packCommand at h
  rw [pathString_singleton, pathString_singleton] at h
  have h1 := string_append_right_cancel h
  have h2 := string_append_left_cancel h1
  exact string_append_left_cancel h2

/-- After a round for a mapped level folder that ended normally, the staging
folder does not exist, the packer was called once, and, when the packer leaves
`levels` alone, the level folder is gone from `levels`. -/
theorem levelEntry_mapped_effect {env : Env} {K A : String} {w w2 : World}
    (hmap : levelMapFind K = some A) (hdir : w.fs.isDirectory ["levels", K] = true)
    (hrun : levelEntry env ["levels", K] w = .ok () w2) :
    commands w2.out = commands w.out ++ [packCommand env.cwd A] ∧
    FS.lookup w2.fs [A] = none ∧
    (LeavesLevels env → FS.lookup w2.fs ["levels", K] = none) := by
  obtain ⟨σ1, σ2, hc, hr, _, hcmd, hfin⟩ := levelEntry_mapped_ok hmap hdir hrun
  obtain ⟨_, hA, _⟩ := alias_facts hmap
  have hab : (["levels", K] : Path) ≠ [A, "LEVELS", K] := by
    intro h; simp at h
  have hnab : ¬ (["levels", K] : Path) <+: [A, "LEVELS", K] := by
    intro h; exact hA (List.cons_prefix_cons.1 h).1.symm
  have hnba : ¬ ([A, "LEVELS", K] : Path) <+: ["levels", K] := by
    intro h; exact hA (List.cons_prefix_cons.1 h).1
  obtain ⟨hσ2, ha, hb, _⟩ := FS.rename_eq_some hr hab
  have hsrc : FS.lookup σ2 ["levels", K] = none := by
    have := FS.lookup_renamed_source σ1 (a := ["levels", K]) (b := [A, "LEVELS", K]) [] ha hnab hnba
    rw [hσ2]; simpa using this
  have hnA : ¬ ([A] : Path) <+: ["levels", K] := by
    intro h; exact hA (List.cons_prefix_cons.1 h).1
  refine ⟨hcmd, ?_, fun hL => ?_⟩
  · rcases hfin with ⟨h1, h2⟩ | h2
    · rw [h2]
      unfold FS.pathExists at h1
      cases hl : FS.lookup (env.system (packCommand env.cwd A) σ2).1 [A] with
      | none => rfl
      | some x => rw [hl] at h1; cases h1
    · rw [h2, FS.lookup_removeAll _ _ (by simp)]
      simp
  · rcases hfin with ⟨_, h2⟩ | h2
    · rw [h2, hL _ _ _ (by simp), hsrc]
    · rw [h2, FS.lookup_removeAll _ _ (by simp), if_neg hnA, hL _ _ _ (by simp), hsrc]

/-- What the loop of `moveLevelFolders` has done when it ends normally, for a
packer that leaves alone `levels` and the staging folders of the other aliases. -/
theorem levelsLoop_ok (env : Env) (hL : LeavesLevels env) (hO : LeavesOtherStaging env)
    (names : List String) (hnd : names.Nodup) (w w2 : World)
    (hrun : levelsLoop env (names.map (fun n => ["levels"] ++ [n])) w = .ok () w2) :
    commands w2.out = commands w.out ++ packCommandsFor env w.fs names ∧
    (∀ n ∈ names, ∀ A, levelMapFind n = some A → w.fs.isDirectory ["levels", n] = true →
      FS.lookup w2.fs ["levels", n] = none ∧ FS.lookup w2.fs [A] = none) := by
  induction names generalizing w with
  | nil =>
    simp only [List.map_nil, levelsLoop, pure_apply] at hrun
    cases hrun
    exact ⟨by simp [packCommandsFor], by simp⟩
  | cons n rest ih =>
    obtain ⟨hn, hrest⟩ := List.nodup_cons.1 hnd
    simp only [List.map_cons, levelsLoop, bind_apply] at hrun
    cases he : levelEntry env (["levels"] ++ [n]) w with
    | throw wx => rw [he] at hrun; cases hrun
    | ok u w1 =>
      rw [he] at hrun
      simp only [advance] at hrun
      rcases tick_cases w1 with ht | ht
      · rw [ht] at hrun
        simp only [] at hrun
        -- the later entries are untouched by this round
        have hk1 : Keeps (fun q => ∃ m ∈ rest, q = ["levels", m])
            (levelEntry env ["levels", n]) := by
          apply levelEntry_keeps
          rintro A hA q ⟨m, hm, rfl⟩
          obtain ⟨_, hAl, _⟩ := alias_facts hA
          refine ⟨by simp, ?_, ?_, fun σ => hL _ _ _ (by simp)⟩
          · intro h2; exact hAl (List.cons_prefix_cons.1 h2).1
          · intro h2
            have : n = m := by simpa using h2
            exact hn (this ▸ hm)
        have hdirs : ∀ m ∈ rest,
            w1.step.fs.isDirectory ["levels", m] = w.fs.isDirectory ["levels", m] := by
          intro m hm
          have := hk1 w ["levels", m] ⟨m, hm, rfl⟩
          have he2 : levelEntry env ["levels", n] w = .ok u w1 := he
          rw [he2] at this
          simp only [Res.world] at this
          unfold FS.isDirectory
          rw [step_fs, this]
        obtain ⟨ihc, ihd⟩ := ih hrest w1.step hrun
        have hfilter : packCommandsFor env w1.step.fs rest = packCommandsFor env w.fs rest := by
          unfold packCommandsFor
          congr 1
          apply List.filter_congr
          intro m hm
          exact hdirs m hm
        -- what the later rounds keep
        have hk2 : ∀ A, levelMapFind n = some A →
            Keeps (fun q => q = ["levels", n] ∨ q = [A])
              (levelsLoop env (rest.map (fun n => ["levels"] ++ [n]))) := by
          intro A hA
          apply levelsLoop_keeps
          intro m hm B hB q hq
          obtain ⟨hBm, hBl, _⟩ := alias_facts hB
          obtain ⟨hAm, hAl, _⟩ := alias_facts hA
          have hmn : m ≠ n := fun h => hn (h ▸ hm)
          have hBA : B ≠ A := fun h => hmn (levelMapFind_injective hB (h ▸ hA))
          rcases hq with rfl | rfl
          · refine ⟨by simp, ?_, ?_, fun σ => hL _ _ _ (by simp)⟩
            · intro h2; exact hBl (List.cons_prefix_cons.1 h2).1
            · intro h2
              have : m = n := by simpa using h2
              exact hmn this
          · refine ⟨by simp, ?_, ?_, fun σ => hO B A σ [A] hAm hBA.symm (List.prefix_refl _)⟩
            · intro h2; exact hBA (List.cons_prefix_cons.1 h2).1
            · intro h2
              have := h2.length_le
              simp at this
        have hlater : ∀ A, levelMapFind n = some A → ∀ q, (q = ["levels", n] ∨ q = [A]) →
            FS.lookup w2.fs q = FS.lookup w1.fs q := by
          intro A hA q hq
          have := hk2 A hA w1.step q hq
          rw [hrun] at this
          exact this
        have he2 : levelEntry env ["levels", n] w = .ok () w1 := he
        refine ⟨?_, ?_⟩
        · rw [ihc, step_out, hfilter]
          cases hd : w.fs.isDirectory ["levels", n] with
          | false =>
            have := (levelEntry_not_directory env hd).2
            rw [he2] at this
            simp only [Res.world] at this
            rw [this]
            simp [packCommandsFor, List.filter_cons, hd]
          | true =>
            cases hA : levelMapFind n with
            | none =>
              have := (levelEntry_unmapped env hA w).2.2
              rw [he2] at this
              simp only [Res.world] at this
              rw [this]
              simp [packCommandsFor, List.filter_cons, hd, hA]
            | some A =>
              rw [(levelEntry_mapped_effect hA hd he2).1]
              simp [packCommandsFor, List.filter_cons, hd, hA]
        · intro m hm A hA hd
          rcases List.mem_cons.1 hm with rfl | hm
          · obtain ⟨_, e2, e3⟩ := levelEntry_mapped_effect hA hd he2
            exact ⟨by rw [hlater A hA _ (Or.inl rfl)]; exact e3 hL,
              by rw [hlater A hA _ (Or.inr rfl)]; exact e2⟩
          · exact ihd m hm A hA (by rw [hdirs m hm]; exact hd)
      · rw [ht] at hrun; cases hrun

/-- The end of the `try` block of `moveLevelFolders`: the test of the top-level
`LEVELS` folder and its removal (source lines 173-177). -/
theorem levels_teardown_ok {w w2 : World}
    (h : (do
        let levelsFolderExists ← fsExists ["LEVELS"]
        if levelsFolderExists = true then do
            fsRemoveAll ["LEVELS"]
            emit (Event.deletedLevels ["LEVELS"])
          else pure PUnit.unit : M PUnit) w = .ok () w2) :
    commands w2.out = commands w.out ∧
    ((FS.pathExists w.fs ["LEVELS"] = false ∧ w2.fs = w.fs) ∨
      w2.fs = FS.removeAll w.fs ["LEVELS"]) := by
  rcases fsExists_cases ["LEVELS"] w with he | he
  · simp only [bind_apply, he] at h; cases h
  · simp only [bind_apply, he] at h
    cases hex : FS.pathExists w.fs ["LEVELS"] with
    | false =>
      simp only [hex, pure_apply] at h
      cases h
      exact ⟨rfl, Or.inl ⟨rfl, rfl⟩⟩
    | true =>
      simp only [hex, if_true, bind_apply] at h
      rcases fsRemoveAll_cases ["LEVELS"] w.step with hr | hr
      · simp only [hr] at h; cases h
      · simp only [hr, emit_apply] at h
        cases h
        refine ⟨?_, Or.inr rfl⟩
        simp only [commands_snoc, List.append_nil]; rfl

theorem lookup_none_of_not_exists {σ : FS} {p : Path} (h : σ.pathExists p = false) :
    FS.lookup σ p = none := by
  unfold FS.pathExists at h
  cases hl : FS.lookup σ p with
  | none => rfl
  | some x => rw [hl] at h; cases h

theorem not_exists_of_lookup_none {σ : FS} {p : Path} (h : FS.lookup σ p = none) :
    σ.pathExists p = false := by
  unfold FS.pathExists; rw [h]; rfl

/-- What the `try` block of `moveLevelFolders` has done when it ends normally. -/
theorem moveLevelFoldersBody_ok (env : Env) (hL : LeavesLevels env)
    (hO : LeavesOtherStaging env) (w w2 : World)
    (hrun : moveLevelFoldersBody env ["levels"] w = .ok () w2) :
    commands w2.out = commands w.out ++ packCommandsFor env w.fs (w.fs.children ["levels"]) ∧
    (∀ K A, levelMapFind K = some A → w.fs.isDirectory ["levels", K] = true →
      FS.lookup w2.fs ["levels", K] = none ∧ FS.lookup w2.fs [A] = none) ∧
    FS.lookup w2.fs ["LEVELS"] = none := by
  unfold moveLevelFoldersBody at hrun
  rw [bind_apply] at hrun
  cases hit : directoryIterator ["levels"] w with
  | throw wx => rw [hit] at hrun; cases hrun
  | ok entries w1 =>
    rw [hit] at hrun
    obtain ⟨he, hw1⟩ := directoryIterator_ok_eq hit
    subst he hw1
    simp only [] at hrun
    rw [bind_apply] at hrun
    cases hloop : levelsLoop env ((w.fs.children ["levels"]).map (fun n => ["levels"] ++ [n]))
        w.step with
    | throw wx => rw [hloop] at hrun; cases hrun
    | ok u w3 =>
      rw [hloop] at hrun
      simp only [] at hrun
      obtain ⟨hc, hd⟩ := levelsLoop_ok env hL hO _ (FS.nodup_children _ _) _ _ hloop
      obtain ⟨tc, tf⟩ := levels_teardown_ok hrun
      simp only [step_fs, step_out] at hc hd
      have hkeep : ∀ q, ¬ (["LEVELS"] : Path) <+: q → FS.lookup w3.fs q = none →
          FS.lookup w2.fs q = none := by
        intro q hq h3
        rcases tf with ⟨_, t2⟩ | t2
        · rw [t2]; exact h3
        · rw [t2, FS.lookup_removeAll _ _ (by simp), if_neg hq]; exact h3
      refine ⟨by rw [tc, hc], ?_, ?_⟩
      · intro K A hA hdir
        have hmem : K ∈ w.fs.children ["levels"] := by
          rw [FS.mem_children]
          unfold FS.isDirectory at hdir
          have : FS.lookup w.fs (["levels"] ++ [K]) = some .dir := by simpa using hdir
          rw [this]; rfl
        obtain ⟨e1, e2⟩ := hd K hmem A hA hdir
        obtain ⟨_, _, hAL⟩ := alias_facts hA
        refine ⟨hkeep _ ?_ e1, hkeep _ ?_ e2⟩
        · intro h; have := (List.cons_prefix_cons.1 h).1; revert this; decide
        · intro h; exact hAL (List.cons_prefix_cons.1 h).1.symm
      · rcases tf with ⟨t1, t2⟩ | t2
        · rw [t2]; exact lookup_none_of_not_exists t1
        · rw [t2, FS.lookup_removeAll _ _ (by simp)]; simp

theorem packCommandsFor_nodup (env : Env) (σ : FS) {names : List String} (h : names.Nodup) :
    (packCommandsFor env σ names).Nodup := by
  unfold packCommandsFor
  apply List.Nodup.filterMap _ (h.filter _)
  intro a a' b hb hb'
  simp only [Option.mem_def, Option.map_eq_some'] at hb hb'
  obtain ⟨A, hA, rfl⟩ := hb
  obtain ⟨B, hB, hAB⟩ := hb'
  have := packCommand_injective env.cwd hAB
  subst this
  exact levelMapFind_injective hA hB

/-- C7.  Pack, final state.  Let `levels` be a directory, let the packer leave
alone `levels` and the staging folders of the other aliases, and let the run
return without a filesystem error (none escaped and none was logged).  Then
after `moveLevelFolders`: no level folder named by a key of `levelMap` that was a
directory under `levels` exists there any more, and the folder named by its
alias does not exist under the working directory; the packer was called exactly
once for each such level, in the order of the listing, and for nothing else;
and the top-level `LEVELS` folder does not exist.  The exit codes of the packer
play no part. -/
theorem moveLevelFolders_final_state (env : Env) (w : World)
    (hL : LeavesLevels env) (hO : LeavesOtherStaging env)
    (hlevels : w.fs.isDirectory ["levels"] = true)
    (hret : (moveLevelFolders env w).returned = true)
    (hclean : Event.fsError ∉ (moveLevelFolders env w).world.out) :
    (∀ K A, levelMapFind K = some A → w.fs.isDirectory ["levels", K] = true →
      FS.pathExists (moveLevelFolders env w).world.fs ["levels", K] = false ∧
      FS.pathExists (moveLevelFolders env w).world.fs [A] = false) ∧
    commandsSince w (moveLevelFolders env w) =
      packCommandsFor env w.fs (w.fs.children ["levels"]) ∧
    (commandsSince w (moveLevelFolders env w)).Nodup ∧
    (∀ K A, levelMapFind K = some A → w.fs.isDirectory ["levels", K] = true →
      packCommand env.cwd A ∈ commandsSince w (moveLevelFolders env w)) ∧
    FS.pathExists (moveLevelFolders env w).world.fs ["LEVELS"] = false := by
  obtain ⟨e1, e2, e3, _⟩ := folderExists_spec ["levels"] w
  have hthrow : ∀ w1, folderExists ["levels"] w = .throw w1 →
      moveLevelFolders env w = .throw w1 := by
    intro w1 h
    simp only [moveLevelFolders, bind_apply, h]
  have hok : ∀ w1, folderExists ["levels"] w = .ok true w1 →
      moveLevelFolders env w =
        tryCatch (moveLevelFoldersBody env ["levels"]) (emit .fsError) w1 := by
    intro w1 h
    simp only [moveLevelFolders, bind_apply, h]
    rfl
  cases hf : folderExists ["levels"] w with
  | throw w1 =>
    rw [hthrow w1 hf] at hret
    cases hret
  | ok b w1 =>
    rw [hf] at e1 e2
    simp only [Res.world] at e1 e2
    have hb := e3 b w1 hf
    rw [hlevels] at hb
    subst hb
    have hm2 : moveLevelFolders env w =
        tryCatch (moveLevelFoldersBody env ["levels"]) (emit .fsError) w1 := hok w1 hf
    cases hbody : moveLevelFoldersBody env ["levels"] w1 with
    | throw w2 =>
      exfalso
      apply hclean
      rw [hm2]
      simp only [tryCatch, hbody, emit_apply, Res.world]
      simp
    | ok u w2 =>
      have hm3 : moveLevelFolders env w = .ok () w2 := by
        rw [hm2]; simp only [tryCatch, hbody]
      obtain ⟨hc, hd, hl⟩ := moveLevelFoldersBody_ok env hL hO w1 w2 hbody
      rw [e1, e2] at hc
      rw [e1] at hd
      have hsince : commandsSince w (moveLevelFolders env w) =
          packCommandsFor env w.fs (w.fs.children ["levels"]) := by
        apply commandsSince_eq
        rw [hm3]; exact hc
      rw [hsince]
      rw [hm3]
      simp only [Res.world]
      refine ⟨?_, trivial, packCommandsFor_nodup env _ (FS.nodup_children _ _), ?_,
        not_exists_of_lookup_none hl⟩
      · intro K A hA hdir
        obtain ⟨h1, h2⟩ := hd K A hA hdir
        exact ⟨not_exists_of_lookup_none h1, not_exists_of_lookup_none h2⟩
      · intro K A hA hdir
        unfold packCommandsFor
        rw [List.mem_filterMap]
        refine ⟨K, ?_, by rw [hA]; rfl⟩
        rw [List.mem_filter]
        refine ⟨?_, by simpa using hdir⟩
        rw [FS.mem_children]
        unfold FS.isDirectory at hdir
        have : FS.lookup w.fs (["levels"] ++ [K]) = some .dir := by simpa using hdir
        rw [this]; rfl

/-! ## The example worlds satisfy the frame conditions -/

theorem leavesLevels_quietEnv : LeavesLevels quietEnv :=
  fun _ _ _ _ => rfl

theorem leavesOtherStaging_quietEnv : LeavesOtherStaging quietEnv :=
  fun _ _ _ _ _ _ _ => rfl

theorem leavesLevels_failingEnv : LeavesLevels failingEnv := by
  intro c σ q hq
  show FS.lookup (σ ++ [(["error.log"], .file c)]) q = FS.lookup σ q
  apply FS.lookup_append_single
  rintro rfl
  have := (List.cons_prefix_cons.1 hq).1
  revert this; decide

/-- C7, an instance: `levelsWorld` with a packer that succeeds. -/
theorem moveLevelFolders_final_state_witness :
    levelsWorld.fs.isDirectory ["levels"] = true ∧
    (moveLevelFolders quietEnv levelsWorld).returned = true ∧
    Event.fsError ∉ (moveLevelFolders quietEnv levelsWorld).world.out ∧
    commandsSince levelsWorld (moveLevelFolders quietEnv levelsWorld) =
      packCommandsFor quietEnv levelsWorld.fs (levelsWorld.fs.children ["levels"]) ∧
    FS.pathExists (moveLevelFolders quietEnv levelsWorld).world.fs ["LEVELS"] = false :=
  ⟨by decide, by decide, by decide,
    (moveLevelFolders_final_state quietEnv levelsWorld leavesLevels_quietEnv
      leavesOtherStaging_quietEnv (by decide) (by decide) (by decide)).2.1,
    (moveLevelFolders_final_state quietEnv levelsWorld leavesLevels_quietEnv
      leavesOtherStaging_quietEnv (by decide) (by decide) (by decide)).2.2.2.2⟩

/-- An instance on a case-sensitive filesystem: `UNKNOWN_LEVEL` in `levelsWorld`,
with a packer that fails and writes a log file. -/
theorem moveLevelFolders_unmapped_level_witness :
    "UNKNOWN_LEVEL" ∉ levelMap.map Prod.fst ∧
    levelsWorld.fs.isDirectory ["levels", "UNKNOWN_LEVEL"] = true ∧
    FS.isDirectory (moveLevelFolders failingEnv levelsWorld).world.fs
      ["levels", "UNKNOWN_LEVEL"] = true ∧
    FS.lookup (moveLevelFolders failingEnv levelsWorld).world.fs
      ["levels", "UNKNOWN_LEVEL", "u.bin"] = some (.file "u") :=
  ⟨by decide, by decide,
    (moveLevelFolders_unmapped_level failingEnv levelsWorld "UNKNOWN_LEVEL" (by decide)
      (by decide) leavesLevels_failingEnv).1,
    ((moveLevelFolders_unmapped_level failingEnv levelsWorld "UNKNOWN_LEVEL" (by decide)
      (by decide) leavesLevels_failingEnv).2.1 ["levels", "UNKNOWN_LEVEL", "u.bin"]
      (by decide)).trans (by decide)⟩

/-! ## The cleanup stage cannot fail on regular files -/

theorem lookup_file_of_onlyFiles {σ : FS} (h : OnlyFiles σ) {p : Path} (hp : p ≠ []) {nd : Node}
    (hl : FS.lookup σ p = some nd) : ∃ c, nd = .file c := by
  rw [FS.lookup_of_ne_nil _ hp] at hl
  cases hf : List.find? (fun e : Path × Node => e.1 == p) σ with
  | none => rw [hf] at hl; cases hl
  | some e =>
    rw [hf] at hl
    simp only [Option.map_some', Option.some.injEq] at hl
    obtain ⟨c, hc⟩ := h e (List.mem_of_find?_eq_some hf)
    exact ⟨c, by rw [← hl, hc]⟩

theorem remove_ok_of_onlyFiles {σ : FS} (h : OnlyFiles σ) {p : Path} (hp : p ≠ []) :
    ∃ σ1, FS.remove σ p = some σ1 ∧ OnlyFiles σ1 := by
  unfold FS.remove
  cases hl : FS.lookup σ p with
  | none => exact ⟨σ, rfl, h⟩
  | some nd =>
    obtain ⟨c, rfl⟩ := lookup_file_of_onlyFiles h hp hl
    refine ⟨FS.removeAll σ p, rfl, ?_⟩
    intro e he
    exact h e (List.mem_of_mem_filter he)

theorem fsRemove_ok {p : Path} {w : World} {σ1 : FS} (hw : NoFaults w)
    (hr : FS.remove w.fs p = some σ1) :
    fsRemove p w = .ok () { w.step with fs := σ1 } := by
  simp only [fsRemove, bind_apply, tick_ok hw, getFS, step_fs, hr, putFS]

/-- On a tree of regular files, with no fault scheduled, the loop of
`deleteFilesInFolder` ends normally. -/
theorem deleteLoop_returns (keep : Bool) (entries : List Path) (w : World)
    (hw : NoFaults w) (hf : OnlyFiles w.fs) :
    (deleteLoop keep entries w).returned = true := by
  induction entries generalizing w with
  | nil => rfl
  | cons p rest ih =>
    have hstep : ∃ w1, deleteEntry keep p w = .ok () w1 ∧ NoFaults w1 ∧ OnlyFiles w1.fs := by
      unfold deleteEntry
      cases hd : cleanupDecision keep p with
      | kept => exact ⟨_, rfl, hw, hf⟩
      | ignored => exact ⟨_, rfl, hw, hf⟩
      | deleted =>
        obtain ⟨σ1, hr, hf1⟩ := remove_ok_of_onlyFiles hf (ne_nil_of_deleted hd)
        have hw2 : NoFaults { w with out := w.out ++ [Event.deleting p] } := hw
        refine ⟨{ w.step with out := w.out ++ [Event.deleting p], fs := σ1 }, ?_, hw.step, hf1⟩
        simp only [bind_apply, emit_apply]
        rw [fsRemove_ok hw2 hr]
        rfl
    obtain ⟨w1, h1, hw1, hf1⟩ := hstep
    simp only [deleteLoop, bind_apply, h1, advance, tick_ok hw1]
    exact ih w1.step hw1.step hf1

/-- On a tree of regular files, with no fault scheduled, no filesystem call of
`deleteFilesInFolder` fails: its `try` block ends normally. -/
theorem deleteFilesInFolderBody_returns (keep : Bool) (w : World)
    (hw : NoFaults w) (hf : OnlyFiles w.fs) :
    (deleteFilesInFolderBody keep w).returned = true := by
  have hd : w.fs.isDirectory [] = true := by simp [FS.isDirectory, FS.lookup_nil]
  simp only [deleteFilesInFolderBody, bind_apply, directoryIterator_ok hw hd]
  exact deleteLoop_returns keep _ w.step hw.step hf

/-! ## The trace only grows -/

theorem extends_pure {α : Type} (a : α) : Extends (pure a : M α) :=
  fun _ => ⟨[], by simp [pure_apply, Res.world]⟩

theorem extends_bind {α β : Type} {m : M α} {f : α → M β}
    (hm : Extends m) (hf : ∀ a, Extends (f a)) : Extends (m >>= f) := by
  intro w
  obtain ⟨e1, h1⟩ := hm w
  rw [bind_apply]
  cases hmw : m w with
  | throw w1 => rw [hmw] at h1; exact ⟨e1, h1⟩
  | ok a w1 =>
    rw [hmw] at h1
    simp only [Res.world] at h1
    obtain ⟨e2, h2⟩ := hf a w1
    exact ⟨e1 ++ e2, by simp only []; rw [h2, h1, List.append_assoc]⟩

theorem extends_ite {α : Type} {c : Prop} [Decidable c] {a b : M α}
    (ha : Extends a) (hb : Extends b) : Extends (if c then a else b) := by
  split
  · exact ha
  · exact hb

theorem extends_emit (e : Event) : Extends (emit e) :=
  fun _ => ⟨[e], rfl⟩

theorem extends_tick : Extends tick := by
  intro w
  rcases tick_cases w with h | h <;> rw [h] <;> exact ⟨[], by simp [Res.world]⟩

theorem extends_fsIsDirectory (p : Path) : Extends (fsIsDirectory p) := by
  intro w
  rcases fsIsDirectory_cases p w with h | h <;> rw [h] <;> exact ⟨[], by simp [Res.world]⟩

theorem extends_fsExists (p : Path) : Extends (fsExists p) := by
  intro w
  rcases fsExists_cases p w with h | h <;> rw [h] <;> exact ⟨[], by simp [Res.world]⟩

theorem extends_fsRemoveAll (p : Path) : Extends (fsRemoveAll p) := by
  intro w
  rcases fsRemoveAll_cases p w with h | h <;> rw [h] <;> exact ⟨[], by simp [Res.world]⟩

theorem extends_fsCreateDirectories (p : Path) : Extends (fsCreateDirectories p) := by
  intro w
  rcases fsCreateDirectories_cases p w with h | ⟨σ1, _, h⟩ <;> rw [h] <;>
    exact ⟨[], by simp [Res.world]⟩

theorem extends_fsRename (a b : Path) : Extends (fsRename a b) := by
  intro w
  rcases fsRename_cases a b w with h | ⟨σ1, _, h⟩ <;> rw [h] <;>
    exact ⟨[], by simp [Res.world]⟩

theorem extends_system (env : Env) (command : String) : Extends (system env command) :=
  fun w => ⟨[.system command w.fs], rfl⟩

theorem extends_levelEntry (env : Env) (entry : Path) : Extends (levelEntry env entry) := by
  unfold levelEntry
  refine extends_bind (extends_fsIsDirectory _) (fun isDir => ?_)
  cases isDir
  · exact extends_pure _
  · simp only [if_true]
    cases hA : levelMapFind (filename entry) with
    | none => exact extends_emit _
    | some A =>
      simp only []
      refine extends_bind (extends_fsCreateDirectories _) (fun _ => ?_)
      refine extends_bind (extends_fsRename _ _) (fun _ => ?_)
      refine extends_bind (extends_emit _) (fun _ => ?_)
      refine extends_bind (extends_emit _) (fun _ => ?_)
      refine extends_bind (extends_system _ _) (fun result => ?_)
      have htail : Extends (do
          let stagingExists ← fsExists [A]
          if stagingExists = true then do
              fsRemoveAll [A]
              emit (Event.deletedFolder A)
            else pure PUnit.unit) := by
        refine extends_bind (extends_fsExists _) (fun ex => ?_)
        refine extends_ite ?_ (extends_pure _)
        exact extends_bind (extends_fsRemoveAll _) (fun _ => extends_emit _)
      refine extends_ite ?_ ?_
      · exact extends_bind (extends_emit _) (fun _ => htail)
      · exact extends_bind (extends_pure _) (fun _ => htail)

theorem extends_levelsLoop (env : Env) (entries : List Path) :
    Extends (levelsLoop env entries) := by
  induction entries with
  | nil => exact extends_pure _
  | cons e rest ih =>
    simp only [levelsLoop]
    refine extends_bind (extends_levelEntry env e) (fun _ => ?_)
    exact extends_bind extends_tick (fun _ => ih)

theorem extends_levelsTeardown : Extends (do
    let levelsFolderExists ← fsExists ["LEVELS"]
    if levelsFolderExists = true then do
        fsRemoveAll ["LEVELS"]
        emit (Event.deletedLevels ["LEVELS"])
      else pure PUnit.unit : M PUnit) := by
  refine extends_bind (extends_fsExists _) (fun ex => ?_)
  refine extends_ite ?_ (extends_pure _)
  exact extends_bind (extends_fsRemoveAll _) (fun _ => extends_emit _)

/-! ## Cutting the loop of `moveLevelFolders` -/

/-- A loop over a listing that ends normally is the loop over its first part,
ending normally, followed by the loop over the rest. -/
theorem levelsLoop_append_ok {env : Env} {l1 l2 : List Path} {w w2 : World}
    (h : levelsLoop env (l1 ++ l2) w = .ok () w2) :
    ∃ w1, levelsLoop env l1 w = .ok () w1 ∧ levelsLoop env l2 w1 = .ok () w2 := by
  induction l1 generalizing w with
  | nil => exact ⟨w, rfl, h⟩
  | cons e rest ih =>
    simp only [List.cons_append, levelsLoop, bind_apply] at h
    cases he : levelEntry env e w with
    | throw wx => rw [he] at h; cases h
    | ok u wa =>
      rw [he] at h
      simp only [advance] at h
      rcases tick_cases wa with ht | ht
      · rw [ht] at h
        simp only [] at h
        obtain ⟨w1, h1, h2⟩ := ih h
        refine ⟨w1, ?_, h2⟩
        simp only [levelsLoop, bind_apply, he, advance, ht]
        exact h1
      · rw [ht] at h; cases h

/-- A loop that ends normally has run its first round, ending normally. -/
theorem levelsLoop_cons_ok {env : Env} {e : Path} {rest : List Path} {w w2 : World}
    (h : levelsLoop env (e :: rest) w = .ok () w2) :
    ∃ wa, levelEntry env e w = .ok () wa ∧ tick wa = .ok () wa.step ∧
      levelsLoop env rest wa.step = .ok () w2 := by
  simp only [levelsLoop, bind_apply] at h
  cases he : levelEntry env e w with
  | throw wx => rw [he] at h; cases h
  | ok u wa =>
    rw [he] at h
    simp only [advance] at h
    rcases tick_cases wa with ht | ht
    · rw [ht] at h
      exact ⟨wa, rfl, ht, h⟩
    · rw [ht] at h; cases h

/-- The commands of a loop that ends normally, for a packer that leaves `levels`
alone: one for each name of the listing that is a directory with an alias. -/
theorem levelsLoop_commands (env : Env) (hL : LeavesLevels env)
    (names : List String) (hnd : names.Nodup) (w w2 : World)
    (hrun : levelsLoop env (names.map (fun n => ["levels"] ++ [n])) w = .ok () w2) :
    commands w2.out = commands w.out ++ packCommandsFor env w.fs names := by
  induction names generalizing w with
  | nil =>
    simp only [List.map_nil, levelsLoop, pure_apply] at hrun
    cases hrun
    simp [packCommandsFor]
  | cons n rest ih =>
    obtain ⟨hn, hrest⟩ := List.nodup_cons.1 hnd
    obtain ⟨w1, he, _, hloop⟩ := levelsLoop_cons_ok hrun
    have he2 : levelEntry env ["levels", n] w = .ok () w1 := he
    have hk1 : Keeps (fun q => ∃ m ∈ rest, q = ["levels", m])
        (levelEntry env ["levels", n]) := by
      apply levelEntry_keeps
      rintro A hA q ⟨m, hm, rfl⟩
      obtain ⟨_, hAl, _⟩ := alias_facts hA
      refine ⟨by simp, ?_, ?_, fun σ => hL _ _ _ (by simp)⟩
      · intro h2; exact hAl (List.cons_prefix_cons.1 h2).1
      · intro h2
        have : n = m := by simpa using h2
        exact hn (this ▸ hm)
    have hdirs : ∀ m ∈ rest,
        w1.step.fs.isDirectory ["levels", m] = w.fs.isDirectory ["levels", m] := by
      intro m hm
      have := hk1 w ["levels", m] ⟨m, hm, rfl⟩
      rw [he2] at this
      simp only [Res.world] at this
      unfold FS.isDirectory
      rw [step_fs, this]
    have hfilter : packCommandsFor env w1.step.fs rest = packCommandsFor env w.fs rest := by
      unfold packCommandsFor
      congr 1
      apply List.filter_congr
      intro m hm
      exact hdirs m hm
    rw [ih hrest w1.step hloop, step_out, hfilter]
    cases hd : w.fs.isDirectory ["levels", n] with
    | false =>
      have := (levelEntry_not_directory env hd).2
      rw [he2] at this
      simp only [Res.world] at this
      rw [this]
      simp [packCommandsFor, List.filter_cons, hd]
    | true =>
      cases hA : levelMapFind n with
      | none =>
        have := (levelEntry_unmapped env hA w).2.2
        rw [he2] at this
        simp only [Res.world] at this
        rw [this]
        simp [packCommandsFor, List.filter_cons, hd, hA]
      | some A =>
        rw [(levelEntry_mapped_effect hA hd he2).1]
        simp [packCommandsFor, List.filter_cons, hd, hA]

/-- A loop whose first part ends normally goes on with the rest. -/
theorem levelsLoop_append {env : Env} {l1 : List Path} (l2 : List Path) {w w1 : World}
    (h : levelsLoop env l1 w = .ok () w1) :
    levelsLoop env (l1 ++ l2) w = levelsLoop env l2 w1 := by
  induction l1 generalizing w with
  | nil =>
    simp only [levelsLoop, pure_apply] at h
    cases h
    rfl
  | cons e rest ih =>
    obtain ⟨wa, he, ht, hrest⟩ := levelsLoop_cons_ok h
    simp only [List.cons_append, levelsLoop, bind_apply, he, advance, ht]
    exact ih hrest

theorem levelsTeardown_invocations {w w2 : World}
    (h : (do
        let levelsFolderExists ← fsExists ["LEVELS"]
        if levelsFolderExists = true then do
            fsRemoveAll ["LEVELS"]
            emit (Event.deletedLevels ["LEVELS"])
          else pure PUnit.unit : M PUnit) w = .ok () w2) :
    ∃ evs, w2.out = w.out ++ evs := by
  obtain ⟨evs, he⟩ := extends_levelsTeardown w
  rw [h] at he
  exact ⟨evs, he⟩

/-- The run of `moveLevelFolders` in pieces, when `levels` is a directory and the
run returned without a filesystem error: the test of `levels`, the listing, the
loop, and the removal of `LEVELS`, each ending normally. -/
theorem moveLevelFolders_pieces {env : Env} {w : World}
    (hlevels : w.fs.isDirectory ["levels"] = true)
    (hret : (moveLevelFolders env w).returned = true)
    (hclean : Event.fsError ∉ (moveLevelFolders env w).world.out) :
    ∃ w1 w3 w2, folderExists ["levels"] w = .ok true w1 ∧ w1.fs = w.fs ∧ w1.out = w.out ∧
      directoryIterator ["levels"] w1 =
        .ok ((w.fs.children ["levels"]).map (fun n => ["levels"] ++ [n])) w1.step ∧
      levelsLoop env ((w.fs.children ["levels"]).map (fun n => ["levels"] ++ [n])) w1.step =
        .ok () w3 ∧
      commands w2.out = commands w3.out ∧ (∃ evs, w2.out = w3.out ++ evs) ∧
      moveLevelFolders env w = .ok () w2 := by
  obtain ⟨e1, e2, e3, _⟩ := folderExists_spec ["levels"] w
  have hthrow : ∀ w1, folderExists ["levels"] w = .throw w1 →
      moveLevelFolders env w = .throw w1 := by
    intro w1 h
    simp only [moveLevelFolders, bind_apply, h]
  have hok : ∀ w1, folderExists ["levels"] w = .ok true w1 →
      moveLevelFolders env w =
        tryCatch (moveLevelFoldersBody env ["levels"]) (emit .fsError) w1 := by
    intro w1 h
    simp only [moveLevelFolders, bind_apply, h]
    rfl
  cases hf : folderExists ["levels"] w with
  | throw w1 =>
    rw [hthrow w1 hf] at hret
    cases hret
  | ok b w1 =>
    rw [hf] at e1 e2
    simp only [Res.world] at e1 e2
    have hb := e3 b w1 hf
    rw [hlevels] at hb
    subst hb
    have hm2 := hok w1 hf
    cases hbody : moveLevelFoldersBody env ["levels"] w1 with
    | throw w2 =>
      exfalso
      apply hclean
      rw [hm2]
      simp only [tryCatch, hbody, emit_apply, Res.world]
      simp
    | ok u w2 =>
      have hm3 : moveLevelFolders env w = .ok () w2 := by
        rw [hm2]; simp only [tryCatch, hbody]
      unfold moveLevelFoldersBody at hbody
      rw [bind_apply] at hbody
      cases hit : directoryIterator ["levels"] w1 with
      | throw wx => rw [hit] at hbody; cases hbody
      | ok entries wi =>
        rw [hit] at hbody
        obtain ⟨hen, hwi⟩ := directoryIterator_ok_eq hit
        subst hen hwi
        simp only [] at hbody
        rw [bind_apply] at hbody
        cases hloop : levelsLoop env
            ((w1.fs.children ["levels"]).map (fun n => ["levels"] ++ [n])) w1.step with
        | throw wx => rw [hloop] at hbody; cases hbody
        | ok u3 w3 =>
          rw [hloop] at hbody
          simp only [] at hbody
          obtain ⟨tc, _⟩ := levels_teardown_ok hbody
          obtain ⟨evs, hev⟩ := levelsTeardown_invocations hbody
          refine ⟨w1, w3, w2, rfl, e1, e2, ?_, ?_, tc, ⟨evs, hev⟩, hm3⟩
          · rw [← e1]; exact hit
          · rw [← e1]; exact hloop

/-- C4.  Pack, one mapped level.  Let `K` be a key of `levelMap` with alias `A`,
let `levels` and `levels/K` be directories, let the packer leave `levels`
alone, and let `moveLevelFolders` return without a filesystem error.  Then `K`
stands in the listing of `levels`; the run reaches the round for `K` in a world
`wa` and leaves that round in a world `wb`; in that round, and nowhere else in
the run, it calls the external packer, exactly once, with the command line made
of the batch file and the quoted path `cwd/A`; in the tree the packer starts
from, `levels/K` and everything below it no longer exist, and `A/LEVELS/K` is a
directory and holds what `levels/K` held at the start of the run; and when the
round is over `A` does not exist, whatever exit code the packer returned. -/
theorem moveLevelFolders_mapped_level (env : Env) (w : World) (K A : String)
    (hL : LeavesLevels env) (hmap : levelMapFind K = some A)
    (hlevels : w.fs.isDirectory ["levels"] = true)
    (hdir : w.fs.isDirectory ["levels", K] = true)
    (hret : (moveLevelFolders env w).returned = true)
    (hclean : Event.fsError ∉ (moveLevelFolders env w).world.out) :
    ∃ (first rest : List String) (σ2 : FS) (wa wb : World),
      w.fs.children ["levels"] = first ++ K :: rest ∧
      moveLevelFoldersUpTo env first w = .ok () wa ∧
      moveLevelFoldersUpTo env (first ++ [K]) w = .ok () wb ∧
      (∃ evs, (moveLevelFolders env w).world.out = wb.out ++ evs) ∧
      invocations wb.out = invocations wa.out ++ [(packCommand env.cwd A, σ2)] ∧
      (packCommand env.cwd A, σ2) ∈ invocationsSince w (moveLevelFolders env w) ∧
      (commandsSince w (moveLevelFolders env w)).count (packCommand env.cwd A) = 1 ∧
      packCommand env.cwd A = "pack_dfs_Drag'n'Drop.bat \"" ++ (env.cwd ++ "/" ++ A) ++ "\"" ∧
      (∀ r, FS.lookup σ2 (["levels", K] ++ r) = none) ∧
      (∀ r, FS.lookup σ2 ([A, "LEVELS", K] ++ r) = FS.lookup w.fs (["levels", K] ++ r)) ∧
      FS.isDirectory σ2 [A, "LEVELS", K] = true ∧
      FS.pathExists wb.fs [A] = false := by
  obtain ⟨w1, w3, w2, hf, e1, e2, hit, hloop, tc, ⟨evT, hevT⟩, hm3⟩ :=
    moveLevelFolders_pieces hlevels hret hclean
  -- `K` stands in the listing
  have hmem : K ∈ w.fs.children ["levels"] := by
    rw [FS.mem_children]
    unfold FS.isDirectory at hdir
    have : FS.lookup w.fs (["levels"] ++ [K]) = some .dir := by simpa using hdir
    rw [this]; rfl
  obtain ⟨first, rest, hsplit⟩ := List.append_of_mem hmem
  have hnd : (first ++ K :: rest).Nodup := hsplit ▸ FS.nodup_children w.fs ["levels"]
  have hKfirst : K ∉ first := by
    intro h
    have := (List.nodup_append.1 hnd).2.2
    exact this h (List.mem_cons_self _ _)
  -- cut the loop before and after the round for `K`
  have hloop2 := hloop
  rw [hsplit, List.map_append, List.map_cons] at hloop2
  obtain ⟨wa, hpre, hrest⟩ := levelsLoop_append_ok hloop2
  obtain ⟨wb0, he, ht, hpost⟩ := levelsLoop_cons_ok hrest
  have he2 : levelEntry env ["levels", K] wa = .ok () wb0 := he
  -- the rounds before leave `levels/K` as it was
  have hk : Keeps (fun q => ["levels", K] <+: q)
      (levelsLoop env (first.map (fun n => ["levels"] ++ [n]))) := by
    apply levelsLoop_keeps
    intro m hm B hB q hq
    obtain ⟨_, hBl, _⟩ := alias_facts hB
    refine ⟨?_, ?_, ?_, fun σ => hL _ _ _ (List.IsPrefix.trans (by simp) hq)⟩
    · intro h0; subst h0; simp at hq
    · intro h2
      obtain ⟨t, rfl⟩ := hq
      exact hBl (List.cons_prefix_cons.1 h2).1
    · intro h2
      have hmK : m = K := by
        obtain ⟨t, rfl⟩ := hq
        obtain ⟨t2, ht2⟩ := h2
        simp at ht2
        exact ht2.1
      exact hKfirst (hmK ▸ hm)
  have hsame : ∀ q, ["levels", K] <+: q → FS.lookup wa.fs q = FS.lookup w.fs q := by
    intro q hq
    have := hk w1.step q hq
    rw [hpre] at this
    simp only [Res.world, step_fs] at this
    rw [this, e1]
  have hdira : wa.fs.isDirectory ["levels", K] = true := by
    unfold FS.isDirectory at hdir ⊢
    rw [hsame _ (List.prefix_refl _)]
    exact hdir
  obtain ⟨σ2, hinv, htext, hgone, hheld, hisdir, hnoA⟩ :=
    levelEntry_mapped_level env K A wa wb0 hmap hdira he2
  -- the two cut runs
  have hup1 : moveLevelFoldersUpTo env first w = .ok () wa := by
    simp only [moveLevelFoldersUpTo, bind_apply, hf, Bool.not_true, Bool.false_eq_true,
      if_false, hit]
    exact hpre
  have hup2 : moveLevelFoldersUpTo env (first ++ [K]) w = .ok () wb0.step := by
    simp only [moveLevelFoldersUpTo, bind_apply, hf, Bool.not_true, Bool.false_eq_true,
      if_false, hit]
    show levelsLoop env ((first ++ [K]).map (fun n => ["levels"] ++ [n])) w1.step = _
    rw [List.map_append, levelsLoop_append _ hpre]
    simp only [List.map_cons, List.map_nil, levelsLoop, bind_apply, he, advance, ht, pure_apply]
  -- the trace of the whole run
  obtain ⟨ev0, hev0⟩ := extends_levelsLoop env (first.map (fun n => ["levels"] ++ [n])) w1.step
  rw [hpre] at hev0
  simp only [Res.world, step_out] at hev0
  obtain ⟨ev1, hev1⟩ := extends_levelsLoop env (rest.map (fun n => ["levels"] ++ [n])) wb0.step
  rw [hpost] at hev1
  simp only [Res.world, step_out] at hev1
  have hout : w2.out = wb0.out ++ (ev1 ++ evT) := by
    rw [hevT, hev1, List.append_assoc]
  have hinv2 : invocations w2.out =
      invocations w.out ++ (invocations ev0 ++ (packCommand env.cwd A, σ2) ::
        invocations (ev1 ++ evT)) := by
    rw [hout, invocations_append, hinv, hev0, e2, invocations_append]
    simp
  have hcmds : commands w2.out =
      commands w.out ++ packCommandsFor env w.fs (w.fs.children ["levels"]) := by
    rw [tc, levelsLoop_commands env hL _ (FS.nodup_children _ _) _ _ hloop, step_out, step_fs,
      e1, e2]
  have hsince : commandsSince w (moveLevelFolders env w) =
      packCommandsFor env w.fs (w.fs.children ["levels"]) := by
    apply commandsSince_eq
    rw [hm3]; exact hcmds
  refine ⟨first, rest, σ2, wa, wb0.step, hsplit, hup1, hup2, ?_, hinv, ?_, ?_, htext, hgone,
    ?_, hisdir, hnoA⟩
  · rw [hm3]
    exact ⟨ev1 ++ evT, hout⟩
  · unfold invocationsSince
    rw [hm3]
    simp only [Res.world]
    rw [hinv2, List.drop_left]
    simp
  · rw [hsince]
    apply List.count_eq_one_of_mem (packCommandsFor_nodup env _ (FS.nodup_children _ _))
    unfold packCommandsFor
    rw [List.mem_filterMap]
    refine ⟨K, ?_, by rw [hmap]; rfl⟩
    rw [List.mem_filter]
    exact ⟨hmem, by simpa using hdir⟩
  · intro r
    rw [hheld r]
    exact hsame _ (List.prefix_append _ _)

/-- C4, an instance: `CH01_HOBBITON` in `levelsWorld`, with a packer that fails
and writes a log file.  The whole run issues one command, the one for
`Ch01_Hob`, and `Ch01_Hob` does not exist afterwards. -/
theorem moveLevelFolders_mapped_level_witness :
    levelMapFind "CH01_HOBBITON" = some "Ch01_Hob" ∧
    levelsWorld.fs.isDirectory ["levels"] = true ∧
    levelsWorld.fs.isDirectory ["levels", "CH01_HOBBITON"] = true ∧
    (moveLevelFolders failingEnv levelsWorld).returned = true ∧
    Event.fsError ∉ (moveLevelFolders failingEnv levelsWorld).world.out ∧
    commandsSince levelsWorld (moveLevelFolders failingEnv levelsWorld) =
      ["pack_dfs_Drag'n'Drop.bat \"C:/game/Ch01_Hob\""] ∧
    FS.pathExists (moveLevelFolders failingEnv levelsWorld).world.fs ["Ch01_Hob"] = false ∧
    FS.pathExists (moveLevelFolders failingEnv levelsWorld).world.fs
      ["levels", "CH01_HOBBITON"] = false ∧
    ∃ (first rest : List String) (σ2 : FS) (wa wb : World),
      levelsWorld.fs.children ["levels"] = first ++ "CH01_HOBBITON" :: rest ∧
      moveLevelFoldersUpTo failingEnv first levelsWorld = .ok () wa ∧
      moveLevelFoldersUpTo failingEnv (first ++ ["CH01_HOBBITON"]) levelsWorld = .ok () wb ∧
      (∃ evs, (moveLevelFolders failingEnv levelsWorld).world.out = wb.out ++ evs) ∧
      invocations wb.out = invocations wa.out ++ [(packCommand failingEnv.cwd "Ch01_Hob", σ2)] ∧
      (packCommand failingEnv.cwd "Ch01_Hob", σ2) ∈
        invocationsSince levelsWorld (moveLevelFolders failingEnv levelsWorld) ∧
      (commandsSince levelsWorld (moveLevelFolders failingEnv levelsWorld)).count
        (packCommand failingEnv.cwd "Ch01_Hob") = 1 ∧
      packCommand failingEnv.cwd "Ch01_Hob" =
        "pack_dfs_Drag'n'Drop.bat \"" ++ (failingEnv.cwd ++ "/" ++ "Ch01_Hob") ++ "\"" ∧
      (∀ r, FS.lookup σ2 (["levels", "CH01_HOBBITON"] ++ r) = none) ∧
      (∀ r, FS.lookup σ2 (["Ch01_Hob", "LEVELS", "CH01_HOBBITON"] ++ r) =
        FS.lookup levelsWorld.fs (["levels", "CH01_HOBBITON"] ++ r)) ∧
      FS.isDirectory σ2 ["Ch01_Hob", "LEVELS", "CH01_HOBBITON"] = true ∧
      FS.pathExists wb.fs ["Ch01_Hob"] = false :=
  ⟨by decide, by decide, by decide, by decide, by decide, by decide, by decide, by decide,
    moveLevelFolders_mapped_level failingEnv levelsWorld "CH01_HOBBITON" "Ch01_Hob"
      leavesLevels_failingEnv (by decide) (by decide) (by decide) (by decide) (by decide)⟩

end HobbitPacker
